import Mathlib

/-!
Verification of the dynamic-forms models (`dynamic_forms/models.py`).

The development shallowly embeds the three persisted record types
(`FormModel`, `FormFieldModel`, `FormModelData`) and the operations the
specification describes: URL normalization on persist, the lazily decoded
and cached `options` mapping with its sanitize-on-save step, slug
derivation of field names, ordered field enumeration, and the
`pretty_value` rendering of stored submissions.

The stored `options` and `value` blobs are JSON text produced and consumed
with Python's `json.dumps` / `json.loads`.  We model JSON values by the
mutual inductive family `Json` / `JsonList` / `JsonObj` (objects are
insertion-ordered association lists, as Python dicts are), a serializer
`json_dumps` emitting Python's default format (separators `", "` and
`": "`), and a fuelled recursive-descent parser `json_loads`.

Modelling notes (simplifications relative to CPython's `json`):
* numbers are modelled as integers only; float syntax (`1.5`, `1e3`,
  `NaN`, `Infinity`) is not parsed, and the parser does not reject a
  leading zero;
* the serializer does not re-encode non-ASCII or control characters with
  `\u` escapes (the parser still accepts `\u` escapes); decoded values
  agree with CPython on all inputs both sides accept;
* duplicate keys in a parsed object are resolved exactly as Python's
  `dict` does: first occurrence keeps its position, later value wins
  (`buildDict` below).
-/

mutual

inductive Json : Type where
  | null : Json
  | bool : Bool → Json
  | num : Int → Json
  | str : String → Json
  | arr : JsonList → Json
  | obj : JsonObj → Json

inductive JsonList : Type where
  | nil : JsonList
  | cons : Json → JsonList → JsonList

inductive JsonObj : Type where
  | nil : JsonObj
  | cons : String → Json → JsonObj → JsonObj

end

/-- Keys of a JSON object, in insertion order. -/
def JsonObj.keys : JsonObj → List String
  | .nil => []
  | .cons k _ t => k :: t.keys

/-- Value stored under key `k`, as Python's `d[k]` / `d.get(k)`. -/
def JsonObj.lookup (o : JsonObj) (k : String) : Option Json :=
  match o with
  | .nil => none
  | .cons k' v t => if k' = k then some v else t.lookup k

/-- True when no entry of `o` has key `k`. -/
def JsonObj.keyAbsent (o : JsonObj) (k : String) : Bool :=
  match o with
  | .nil => true
  | .cons k' _ t => (k' != k) && t.keyAbsent k

/-- Concatenation of two association lists. -/
def JsonObj.append : JsonObj → JsonObj → JsonObj
  | .nil, p => p
  | .cons k v t, p => .cons k v (t.append p)

/-- Keep only the entries whose key satisfies `p` (models deleting the
other keys from a Python dict, which preserves the order of survivors). -/
def JsonObj.filterKeys (p : String → Bool) : JsonObj → JsonObj
  | .nil => .nil
  | .cons k v t => if p k then .cons k v (t.filterKeys p) else t.filterKeys p

/-- Python `d[k] = v`: replace in place when the key exists, else append. -/
def insertOD : JsonObj → String → Json → JsonObj
  | .nil, k, v => .cons k v .nil
  | .cons k' v' t, k, v =>
      if k' = k then .cons k' v t else .cons k' v' (insertOD t k v)

/-- Python `dict(pairs)`: fold the raw pair list into a dict. -/
def buildDict : JsonObj → JsonObj → JsonObj
  | acc, .nil => acc
  | acc, .cons k v t => buildDict (insertOD acc k v) t

/-- Association list of a JSON object as Lean pairs. -/
def JsonObj.toPairs : JsonObj → List (String × Json)
  | .nil => []
  | .cons k v t => (k, v) :: t.toPairs

mutual

/-- Well-formedness: every object in the value has pairwise-distinct keys.
Values produced by Python code always satisfy this, because Python dicts
cannot hold duplicate keys. -/
def jsonWF : Json → Bool
  | .null => true
  | .bool _ => true
  | .num _ => true
  | .str _ => true
  | .arr l => jsonWFList l
  | .obj o => jsonWFObj o

def jsonWFList : JsonList → Bool
  | .nil => true
  | .cons v t => jsonWF v && jsonWFList t

def jsonWFObj : JsonObj → Bool
  | .nil => true
  | .cons k v t => t.keyAbsent k && jsonWF v && jsonWFObj t

end

/- ### Decimal digits (`str(n)` for a non-negative int) -/

def digitChar (d : Nat) : Char := Char.ofNat (48 + d)

def charDigit (c : Char) : Nat := c.toNat - 48

/-- Fuelled digit extraction; with fuel `> n` this produces the decimal
digits of `n` in front of `acc`. -/
def natCharsAux : Nat → Nat → List Char → List Char
  | 0, _, acc => acc
  | fuel + 1, n, acc =>
      if n = 0 then acc
      else natCharsAux fuel (n / 10) (digitChar (n % 10) :: acc)

/-- Decimal representation of a natural number, as Python's `str`. -/
def natChars (n : Nat) : List Char :=
  if n = 0 then ['0'] else natCharsAux (n + 1) n []

/-- Decimal representation of an integer, as Python's `str`. -/
def intChars (i : Int) : List Char :=
  if i < 0 then '-' :: natChars i.natAbs else natChars i.toNat

/- ### String literals -/

/-- Serialization of one character inside a JSON string literal.  The
serializer escapes the two characters that are load-bearing for the
grammar; see the header note about `\u` re-encoding. -/
def escChar (c : Char) : List Char :=
  if c = '"' then ['\\', '"']
  else if c = '\\' then ['\\', '\\']
  else [c]

def escList : List Char → List Char
  | [] => []
  | c :: cs => escChar c ++ escList cs

/-- A quoted JSON string literal. -/
def quoteChars (s : String) : List Char :=
  '"' :: escList s.data ++ ['"']

/- ### Serializer (`json.dumps` with its default separators) -/

mutual

def dumpsChars : Json → List Char
  | .null => "null".data
  | .bool b => if b then "true".data else "false".data
  | .num i => intChars i
  | .str s => quoteChars s
  | .arr l => '[' :: dumpsArrChars l ++ [']']
  | .obj o => '{' :: dumpsObjChars o ++ ['}']

def dumpsArrChars : JsonList → List Char
  | .nil => []
  | .cons v .nil => dumpsChars v
  | .cons v (.cons w t) =>
      dumpsChars v ++ ',' :: ' ' :: dumpsArrChars (.cons w t)

def dumpsObjChars : JsonObj → List Char
  | .nil => []
  | .cons k v .nil => quoteChars k ++ ':' :: ' ' :: dumpsChars v
  | .cons k v (.cons k' w t) =>
      quoteChars k ++ ':' :: ' ' :: dumpsChars v ++
        ',' :: ' ' :: dumpsObjChars (.cons k' w t)

end

/-- Python's `json.dumps` with default arguments. -/
def json_dumps (v : Json) : String := String.mk (dumpsChars v)

/- ### Parser (`json.loads`) -/

/-- The whitespace characters `json.loads` skips between tokens. -/
def isWsChar (c : Char) : Bool :=
  c = ' ' || c = '\t' || c = '\n' || c = '\r'

def skipWs (cs : List Char) : List Char := cs.dropWhile isWsChar

def hexVal (c : Char) : Option Nat :=
  if '0' ≤ c ∧ c ≤ '9' then some (c.toNat - 48)
  else if 'a' ≤ c ∧ c ≤ 'f' then some (c.toNat - 87)
  else if 'A' ≤ c ∧ c ≤ 'F' then some (c.toNat - 55)
  else none

/-- Named escapes accepted after a backslash in a string literal. -/
def decodeEsc (e : Char) : Option Char :=
  if e = '"' then some '"'
  else if e = '\\' then some '\\'
  else if e = '/' then some '/'
  else if e = 'n' then some '\n'
  else if e = 't' then some '\t'
  else if e = 'r' then some '\r'
  else if e = 'b' then some (Char.ofNat 8)
  else if e = 'f' then some (Char.ofNat 12)
  else none

/-- Parse the body of a string literal after the opening quote; returns
the decoded characters and the remainder after the closing quote. -/
def parseStrBody : List Char → Option (List Char × List Char)
  | [] => none
  | c :: cs =>
      if c = '"' then some ([], cs)
      else if c = '\\' then
        match cs with
        | [] => none
        | e :: cs' =>
            if e = 'u' then
              match cs' with
              | h1 :: h2 :: h3 :: h4 :: cs'' =>
                  match hexVal h1, hexVal h2, hexVal h3, hexVal h4 with
                  | some a, some b, some c2, some d =>
                      (parseStrBody cs'').map fun p =>
                        (Char.ofNat (((a * 16 + b) * 16 + c2) * 16 + d) :: p.1, p.2)
                  | _, _, _, _ => none
              | _ => none
            else
              match decodeEsc e with
              | some d => (parseStrBody cs').map fun p => (d :: p.1, p.2)
              | none => none
      else (parseStrBody cs).map fun p => (c :: p.1, p.2)

/-- Parse a run of decimal digits into a natural number. -/
def parseNat (cs : List Char) : Option (Nat × List Char) :=
  let ds := cs.takeWhile Char.isDigit
  if ds.isEmpty then none
  else some (ds.foldl (fun a c => 10 * a + charDigit c) 0, cs.dropWhile Char.isDigit)

mutual

def parseValue : Nat → List Char → Option (Json × List Char)
  | 0, _ => none
  | n + 1, cs =>
      match skipWs cs with
      | [] => none
      | c :: cs' =>
          if c.isDigit then
            (parseNat (c :: cs')).map fun p => (Json.num (Int.ofNat p.1), p.2)
          else if c = '-' then
            (parseNat cs').map fun p => (Json.num (-(Int.ofNat p.1)), p.2)
          else if c = '"' then
            (parseStrBody cs').map fun p => (Json.str (String.mk p.1), p.2)
          else if c = '[' then
            let t := skipWs cs'
            if t.head? = some ']' then some (.arr .nil, t.tail)
            else (parseArrLoop n cs').map fun p => (Json.arr p.1, p.2)
          else if c = '{' then
            let t := skipWs cs'
            if t.head? = some '}' then some (.obj .nil, t.tail)
            else (parseObjLoop n cs').map fun p => (Json.obj (buildDict .nil p.1), p.2)
          else if c = 'n' then
            match cs' with
            | 'u' :: 'l' :: 'l' :: r => some (.null, r)
            | _ => none
          else if c = 't' then
            match cs' with
            | 'r' :: 'u' :: 'e' :: r => some (.bool true, r)
            | _ => none
          else if c = 'f' then
            match cs' with
            | 'a' :: 'l' :: 's' :: 'e' :: r => some (.bool false, r)
            | _ => none
          else none

def parseArrLoop : Nat → List Char → Option (JsonList × List Char)
  | 0, _ => none
  | n + 1, cs =>
      match parseValue n cs with
      | none => none
      | some (v, r) =>
          let r' := skipWs r
          if r'.head? = some ',' then
            match parseArrLoop n r'.tail with
            | none => none
            | some (vs, r'') => some (.cons v vs, r'')
          else if r'.head? = some ']' then some (.cons v .nil, r'.tail)
          else none

def parseObjLoop : Nat → List Char → Option (JsonObj × List Char)
  | 0, _ => none
  | n + 1, cs =>
      let cs' := skipWs cs
      if cs'.head? = some '"' then
        match parseStrBody cs'.tail with
        | none => none
        | some (k, r) =>
            let r' := skipWs r
            if r'.head? = some ':' then
              match parseValue n r'.tail with
              | none => none
              | some (v, r2) =>
                  let r2' := skipWs r2
                  if r2'.head? = some ',' then
                    match parseObjLoop n r2'.tail with
                    | none => none
                    | some (kvs, r3) => some (.cons (String.mk k) v kvs, r3)
                  else if r2'.head? = some '}' then
                    some (.cons (String.mk k) v .nil, r2'.tail)
                  else none
            else none
      else none

end

/-- Python's `json.loads`: parse one value, then require only trailing
whitespace.  On any syntax error the result is `none` (a `ValueError`). -/
def json_loads (s : String) : Option Json :=
  match parseValue (s.length + 1) s.data with
  | some (v, r) => if skipWs r = [] then some v else none
  | none => none

/- ### Fuel measures for the parser -/

mutual

def fuelV : Json → Nat
  | .null => 1
  | .bool _ => 1
  | .num _ => 1
  | .str _ => 1
  | .arr l => 1 + fuelA l
  | .obj o => 1 + fuelO o

def fuelA : JsonList → Nat
  | .nil => 0
  | .cons v t => 1 + fuelV v + fuelA t

def fuelO : JsonObj → Nat
  | .nil => 0
  | .cons _ v t => 1 + fuelV v + fuelO t

end

/-- Heads that cannot begin a number continuation. -/
def noDigitHead (cs : List Char) : Prop :=
  ∀ c, cs.head? = some c → c.isDigit = false

/-- Every key of the first dict is absent from the second. -/
def freshB : JsonObj → JsonObj → Bool
  | .nil, _ => true
  | .cons k _ t, acc => acc.keyAbsent k && freshB t acc

/- ### django.utils.html.escape -/

/-- Replacement for one character under Django's `escape` (ampersand
first, as the chained `.replace` calls effectively do). -/
def escMap (c : Char) : List Char :=
  if c = '&' then "&amp;".data
  else if c = '<' then "&lt;".data
  else if c = '>' then "&gt;".data
  else if c = '"' then "&quot;".data
  else if c = Char.ofNat 39 then "&#39;".data
  else [c]

def htmlEscapeList : List Char → List Char
  | [] => []
  | c :: cs => escMap c ++ htmlEscapeList cs

/-- Django's `escape`, applied by `pretty_value` to keys and values. -/
def htmlEscape (s : String) : String := String.mk (htmlEscapeList s.data)

/- ### force_text of a decoded JSON value (Python str / repr) -/

/-- Python `repr` of a string, simplified to always use single quotes and
escape only quote and backslash (CPython varies the quote character for
strings containing quotes; no claim depends on that corner). -/
def reprEscChar (c : Char) : List Char :=
  if c = '\\' then ['\\', '\\']
  else if c = Char.ofNat 39 then ['\\', Char.ofNat 39]
  else [c]

def reprEscList : List Char → List Char
  | [] => []
  | c :: cs => reprEscChar c ++ reprEscList cs

def pyReprStr (s : String) : String :=
  String.mk (Char.ofNat 39 :: reprEscList s.data ++ [Char.ofNat 39])

mutual

/-- Python `str(x)` (= `force_text`) for an object decoded from JSON. -/
def pythonStr : Json → String
  | .null => "None"
  | .bool true => "True"
  | .bool false => "False"
  | .num i => String.mk (intChars i)
  | .str s => s
  | .arr l => "[" ++ pythonReprList l ++ "]"
  | .obj o => "\x7b" ++ pythonReprObj o ++ "\x7d"

/-- Python `repr(x)`, used for elements of nested containers. -/
def pythonRepr : Json → String
  | .null => "None"
  | .bool true => "True"
  | .bool false => "False"
  | .num i => String.mk (intChars i)
  | .str s => pyReprStr s
  | .arr l => "[" ++ pythonReprList l ++ "]"
  | .obj o => "\x7b" ++ pythonReprObj o ++ "\x7d"

def pythonReprList : JsonList → String
  | .nil => ""
  | .cons v .nil => pythonRepr v
  | .cons v (.cons w t) => pythonRepr v ++ ", " ++ pythonReprList (.cons w t)

def pythonReprObj : JsonObj → String
  | .nil => ""
  | .cons k v .nil => pyReprStr k ++ ": " ++ pythonRepr v
  | .cons k v (.cons k' w t) =>
      pyReprStr k ++ ": " ++ pythonRepr v ++ ", " ++ pythonReprObj (.cons k' w t)

end

/- ### Stable insertion sort by a strict comparison (Python `sorted`) -/

def insSortedBy {α : Type} (lt : α → α → Bool) (x : α) : List α → List α
  | [] => [x]
  | y :: ys => if lt y x then y :: insSortedBy lt x ys else x :: y :: ys

def sortListBy {α : Type} (lt : α → α → Bool) : List α → List α
  | [] => []
  | x :: xs => insSortedBy lt x (sortListBy lt xs)

/-- Python's `<` on strings: lexicographic by code point. -/
def strLtList : List Char → List Char → Bool
  | _, [] => false
  | [], _ :: _ => true
  | a :: as, b :: bs =>
      if a.toNat < b.toNat then true
      else if b.toNat < a.toNat then false
      else strLtList as bs

def pyStrLt (a b : String) : Bool := strLtList a.data b.data

/-- The comparison `sorted(data.items())` effectively applies when all
keys are distinct (keys of a dict always are): tuple comparison starts
with the keys and never reaches the values. -/
def pairLt (a b : String × Json) : Bool := pyStrLt a.1 b.1

def sortPairs (l : List (String × Json)) : List (String × Json) :=
  sortListBy pairLt l

/- ### django.template.defaultfilters.slugify -/

/-- Word characters of the `\w` class (ASCII reading). -/
def isWordChar (c : Char) : Bool := c.isAlphanum || c = '_'

/-- Characters collapsed to a single hyphen by the final `[-\s]+` step. -/
def isRunChar (c : Char) : Bool := c.isWhitespace || c = '-'

/-- Python `str.strip()`. -/
def stripEnds (l : List Char) : List Char :=
  ((l.dropWhile Char.isWhitespace).reverse.dropWhile Char.isWhitespace).reverse

/-- Replace every maximal run of whitespace/hyphen characters by one
hyphen (`re.sub` with `[-\s]+`); the flag records being inside a run. -/
def collapseRuns : Bool → List Char → List Char
  | _, [] => []
  | inRun, c :: cs =>
      if isRunChar c then
        (if inRun then collapseRuns true cs else '-' :: collapseRuns true cs)
      else c :: collapseRuns false cs

/-- Django's `slugify`: drop characters outside `[\w\s-]`, strip, lower,
then join the word runs with single hyphens. -/
def slugify (s : String) : String :=
  let kept := s.data.filter fun c => isWordChar c || c.isWhitespace || c = '-'
  let lowered := (stripEnds kept).map Char.toLower
  String.mk (collapseRuns false lowered)

/- ### Python str.endswith('/') -/

/-- Models `s.endswith('/')`: the last character is a forward slash. -/
def endsWithSlash (s : String) : Bool := s.data.getLast? = some '/'

/- ### The registry and the three persisted record types -/

/-- Python exceptions surfaced by the modelled operations. -/
inductive PyErr : Type where
  | notFound : PyErr
  | attributeError : PyErr
deriving DecidableEq

/-- A field-type plugin descriptor.  Only the part the model layer
consumes is embedded: `_meta` is the key set of the declared options
schema (`field_type_cls._meta.keys()`). -/
structure FieldType where
  _meta : List String

structure Registry where
  entries : List (String × FieldType)

/-- Modelled from the spec: the field-type registry (its module is not
part of the model file).  Per the spec, `get(key)` fails with `NotFound`
when the key is unregistered. -/
def Registry.get (r : Registry) (k : String) : Except PyErr FieldType :=
  match r.entries.lookup k with
  | some ft => Except.ok ft
  | none => Except.error PyErr.notFound

/-- `FormModel`: routing/presentation metadata of one dynamic form. -/
structure FormModel where
  name : String
  submit_url : String
  success_url : String
  actions : List String
  form_template : String
  success_template : String

/-- `FormModel.save`: normalize the URLs, then delegate to the store
(the modelled result is the record the store receives). -/
def FormModel.save (m : FormModel) : FormModel :=
  let m1 := if endsWithSlash m.submit_url then m
    else { m with submit_url := m.submit_url ++ "/" }
  if m1.success_url = "" then { m1 with success_url := m1.submit_url ++ "done/" }
  else if endsWithSlash m1.success_url then m1
  else { m1 with success_url := m1.success_url ++ "/" }

/-- `FormFieldModel`: one configured field.  `_options` is the stored
blob (a nullable text column); `_options_cached` models the presence and
content of the memoising `_options_cached` attribute. -/
structure FormFieldModel where
  parent_form : Nat
  field_type : String
  label : String
  name : String
  _options : Option String
  position : Int
  _options_cached : Option Json

/-- The `options` property getter: return the cached decode if present;
otherwise decode the blob (empty/null blob or a decode failure yields
the empty dict) and memoise it.  Returns the value and the state after
the read. -/
def FormFieldModel.optionsGet (f : FormFieldModel) : Json × FormFieldModel :=
  match f._options_cached with
  | some v => (v, f)
  | none =>
      let v := match f._options with
        | none => Json.obj .nil
        | some s =>
            if s = "" then Json.obj .nil else (json_loads s).getD (Json.obj .nil)
      (v, { f with _options_cached := some v })

def FormFieldModel.optionsValue (f : FormFieldModel) : Json := f.optionsGet.1

/-- The `options` setter: drop the cache, re-serialize eagerly. -/
def FormFieldModel.optionsSet (f : FormFieldModel) (v : Json) : FormFieldModel :=
  { f with _options_cached := none, _options := some (json_dumps v) }

/-- `get_form_field_kwargs`: `kwargs = self.options` aliases the cached
dict, and `kwargs.update(...)` mutates it in place, so the updated dict
is also the new cache content.  A non-dict decoded value has no
`update` attribute. -/
def FormFieldModel.get_form_field_kwargs (f : FormFieldModel) :
    Except PyErr (JsonObj × FormFieldModel) :=
  match f.optionsGet with
  | (Json.obj o, f') =>
      let kw := insertOD (insertOD o "name" (.str f'.name)) "label" (.str f'.label)
      Except.ok (kw, { f' with _options_cached := some (.obj kw) })
  | _ => Except.error PyErr.attributeError

/-- `generate_form_field(form)`: look up the constructor (NotFound
propagates), build the kwargs.  Constructing the runtime field and its
`contribute_to_form(form)` capability live outside the model layer; the
embedding returns the state after the call and the kwargs the
constructor receives. -/
def generate_form_field (reg : Registry) (f : FormFieldModel) :
    Except PyErr (FormFieldModel × JsonObj) :=
  match reg.get f.field_type with
  | Except.error e => Except.error e
  | Except.ok _ =>
      match f.get_form_field_kwargs with
      | Except.error e => Except.error e
      | Except.ok (kw, f') => Except.ok (f', kw)

/-- Sanitization step of `FormFieldModel.save`, after name derivation:
read the options (materialising the cache), look the field type up
(`NotFound` propagates), take the declared keys of its schema, and prune
the keys outside it; `set(self.options.keys())` on a non-dict decoded
value raises `AttributeError`.  When nothing is invalid the blob and the
cache are left as they are. -/
def FormFieldModel.saveSanitize (reg : Registry) (f1 : FormFieldModel) :
    Except PyErr FormFieldModel :=
  match reg.get f1.field_type with
  | Except.error e => Except.error e
  | Except.ok cls =>
      match f1.optionsGet with
      | (Json.obj o, f2) =>
          if (o.keys.filter fun k => ! decide (k ∈ cls._meta)).isEmpty then
            Except.ok f2
          else
            Except.ok (f2.optionsSet
              (.obj (o.filterKeys fun k => decide (k ∈ cls._meta))))
      | _ => Except.error PyErr.attributeError

/-- `FormFieldModel.save`: derive `name` from `label` when empty, then
sanitize the options before the store write. -/
def FormFieldModel.save (reg : Registry) (f0 : FormFieldModel) :
    Except PyErr FormFieldModel :=
  FormFieldModel.saveSanitize reg
    (if f0.name = "" then { f0 with name := slugify f0.label } else f0)

/-- The fields of a form as the admin ordering returns them: Meta
ordering is `['parent_form', 'position']`; within one form that is an
ORDER BY `position` over the rows in creation order, i.e. a stable sort
of the creation-ordered list. -/
def posLt (a b : FormFieldModel) : Bool := decide (a.position < b.position)

def orderFields (fields : List FormFieldModel) : List FormFieldModel :=
  sortListBy posLt fields

/-- Python `d[k] = v` on a string-valued dict (`OrderedDict` update). -/
def insertPair : List (String × String) → String × String → List (String × String)
  | [], p => [p]
  | q :: t, p => if q.1 = p.1 then (q.1, p.2) :: t else q :: insertPair t p

/-- `OrderedDict(pairs)`. -/
def orderedDictOfPairs (l : List (String × String)) : List (String × String) :=
  l.foldl insertPair []

/-- `get_fields_as_dict`: ordered mapping name → label over the form's
fields in their defined order. -/
def FormModel.get_fields_as_dict (fields : List FormFieldModel) :
    List (String × String) :=
  orderedDictOfPairs ((orderFields fields).map fun f => (f.name, f.label))

/-- `FormModelData`: one stored submission; `form` is a weak reference
(null once the form is deleted), `submitted` an opaque timestamp. -/
structure FormModelData where
  form : Option Nat
  value : String
  submitted : Nat

def renderPair (k : String) (v : Json) : String :=
  "<dt>" ++ htmlEscape k ++ "</dt><dd>" ++ htmlEscape (pythonStr v) ++ "</dd>"

def renderDl (pairs : List (String × Json)) : String :=
  "<dl>" ++ String.join (pairs.map fun p => renderPair p.1 p.2) ++ "</dl>"

/-- `pretty_value`: decode `value`; a `ValueError` is caught (raw string
returned); a decoded dict is rendered sorted by key with keys and values
escaped; any other decoded value reaches `data.items()` and raises
`AttributeError`, which the method does not catch. -/
def FormModelData.pretty_value (d : FormModelData) : Except PyErr String :=
  match json_loads d.value with
  | none => Except.ok d.value
  | some (Json.obj o) => Except.ok (renderDl (sortPairs o.toPairs))
  | some _ => Except.error PyErr.attributeError

/- ### Decimal digit lemmas -/

theorem charDigit_digitChar {m : Nat} (h : m < 10) : charDigit (digitChar m) = m := by
  interval_cases m <;> decide

theorem isDigit_digitChar {m : Nat} (h : m < 10) : (digitChar m).isDigit = true := by
  interval_cases m <;> decide

theorem natCharsAux_spec :
    ∀ fuel n acc, n ≤ fuel →
      ∃ pre, natCharsAux fuel n acc = pre ++ acc ∧
        (∀ c ∈ pre, c.isDigit = true) ∧
        (∀ v : Nat, pre.foldl (fun a c => 10 * a + charDigit c) v
            = v * 10 ^ pre.length + n) ∧
        (n ≠ 0 → pre ≠ []) := by
  intro fuel
  induction fuel with
  | zero =>
      intro n acc h
      have hn : n = 0 := Nat.le_zero.mp h
      subst hn
      exact ⟨[], by simp [natCharsAux], by simp, by simp, by simp⟩
  | succ f ih =>
      intro n acc h
      by_cases hn : n = 0
      · subst hn
        exact ⟨[], by simp [natCharsAux], by simp, by simp, by simp⟩
      · have hdiv : n / 10 ≤ f := by omega
        obtain ⟨pre, heq, hdig, hfold, -⟩ :=
          ih (n / 10) (digitChar (n % 10) :: acc) hdiv
        have hm : n % 10 < 10 := Nat.mod_lt _ (by omega)
        refine ⟨pre ++ [digitChar (n % 10)], ?_, ?_, ?_, ?_⟩
        · simp only [natCharsAux, if_neg hn, heq, List.append_assoc,
            List.singleton_append]
        · intro c hc
          rcases List.mem_append.mp hc with hc | hc
          · exact hdig c hc
          · rcases List.mem_singleton.mp hc with rfl
            exact isDigit_digitChar hm
        · intro v
          rw [List.foldl_append, hfold]
          simp only [List.foldl_cons, List.foldl_nil, List.length_append,
            List.length_singleton]
          rw [charDigit_digitChar hm, pow_succ, ← mul_assoc]
          omega
        · intro _
          simp

theorem natChars_ne_nil (n : Nat) : natChars n ≠ [] := by
  unfold natChars
  by_cases hn : n = 0
  · simp [hn]
  · simp only [if_neg hn]
    obtain ⟨pre, heq, -, -, hne⟩ := natCharsAux_spec (n + 1) n [] (by omega)
    rw [heq, List.append_nil]
    exact hne hn

theorem natChars_digits (n : Nat) : ∀ c ∈ natChars n, c.isDigit = true := by
  unfold natChars
  by_cases hn : n = 0
  · simp only [hn, if_pos rfl]
    intro c hc
    rcases List.mem_singleton.mp hc with rfl
    decide
  · simp only [if_neg hn]
    obtain ⟨pre, heq, hdig, -, -⟩ := natCharsAux_spec (n + 1) n [] (by omega)
    rw [heq, List.append_nil]
    exact hdig

theorem natChars_foldl (n : Nat) :
    (natChars n).foldl (fun a c => 10 * a + charDigit c) 0 = n := by
  unfold natChars
  by_cases hn : n = 0
  · simp [hn]; decide
  · simp only [if_neg hn]
    obtain ⟨pre, heq, -, hfold, -⟩ := natCharsAux_spec (n + 1) n [] (by omega)
    rw [heq, List.append_nil, hfold 0]
    simp

/- ### takeWhile / dropWhile over a fully satisfying prefix -/

theorem takeWhile_append_all {α : Type} {p : α → Bool} :
    ∀ {l r : List α}, (∀ c ∈ l, p c = true) →
      (l ++ r).takeWhile p = l ++ r.takeWhile p := by
  intro l
  induction l with
  | nil => intro r _; simp
  | cons a t ih =>
      intro r h
      have ha : p a = true := h a (List.mem_cons_self a t)
      simp only [List.cons_append, List.takeWhile_cons, ha, if_pos]
      rw [ih fun c hc => h c (List.mem_cons_of_mem a hc)]

theorem dropWhile_append_all {α : Type} {p : α → Bool} :
    ∀ {l r : List α}, (∀ c ∈ l, p c = true) →
      (l ++ r).dropWhile p = r.dropWhile p := by
  intro l
  induction l with
  | nil => intro r _; simp
  | cons a t ih =>
      intro r h
      have ha : p a = true := h a (List.mem_cons_self a t)
      simp only [List.cons_append, List.dropWhile_cons, ha, if_pos]
      exact ih fun c hc => h c (List.mem_cons_of_mem a hc)

theorem takeWhile_digit_nil {cs : List Char} (h : noDigitHead cs) :
    cs.takeWhile Char.isDigit = [] := by
  cases cs with
  | nil => rfl
  | cons c t =>
      have := h c rfl
      simp [List.takeWhile_cons, this]

theorem dropWhile_digit_self {cs : List Char} (h : noDigitHead cs) :
    cs.dropWhile Char.isDigit = cs := by
  cases cs with
  | nil => rfl
  | cons c t =>
      have := h c rfl
      simp [List.dropWhile_cons, this]

theorem parseNat_natChars {n : Nat} {rest : List Char} (h : noDigitHead rest) :
    parseNat (natChars n ++ rest) = some (n, rest) := by
  unfold parseNat
  rw [takeWhile_append_all (natChars_digits n),
    dropWhile_append_all (natChars_digits n),
    takeWhile_digit_nil h, dropWhile_digit_self h, List.append_nil]
  have hne' : (natChars n).isEmpty = false := by
    cases hcs : natChars n with
    | nil => exact absurd hcs (natChars_ne_nil n)
    | cons a t => rfl
  simp [hne', natChars_foldl]

/- ### skipWs lemmas -/

theorem skipWs_cons_not {c : Char} {cs : List Char} (h : isWsChar c = false) :
    skipWs (c :: cs) = c :: cs := by
  simp [skipWs, List.dropWhile_cons, h]

theorem skipWs_cons_ws {c : Char} {cs : List Char} (h : isWsChar c = true) :
    skipWs (c :: cs) = skipWs cs := by
  simp [skipWs, List.dropWhile_cons, h]

theorem not_ws_of_digit {c : Char} (h : c.isDigit = true) : isWsChar c = false := by
  cases hws : isWsChar c
  · rfl
  · exfalso
    simp only [isWsChar, Bool.or_eq_true, decide_eq_true_eq] at hws
    rcases hws with ((rfl | rfl) | rfl) | rfl <;> exact absurd h (by decide)

theorem digit_ne_rbracket {c : Char} (h : c.isDigit = true) : c ≠ ']' := by
  rintro rfl; exact absurd h (by decide)

theorem digit_ne_rbrace {c : Char} (h : c.isDigit = true) : c ≠ '}' := by
  rintro rfl; exact absurd h (by decide)

/- ### String-literal round trip -/

theorem parseStrBody_escList :
    ∀ (l : List Char) (rest : List Char),
      parseStrBody (escList l ++ '"' :: rest) = some (l, rest) := by
  intro l
  induction l with
  | nil =>
      intro rest
      rw [show escList [] ++ '"' :: rest = '"' :: rest from rfl]
      rw [parseStrBody.eq_def]
      simp
  | cons c t ih =>
      intro rest
      by_cases hq : c = '"'
      · subst hq
        rw [show escList ('"' :: t) ++ '"' :: rest
              = '\\' :: '"' :: (escList t ++ '"' :: rest) from by
            simp [escList, escChar]]
        rw [parseStrBody.eq_def]
        simp [decodeEsc, ih rest]
      · by_cases hb : c = '\\'
        · subst hb
          rw [show escList ('\\' :: t) ++ '"' :: rest
                = '\\' :: '\\' :: (escList t ++ '"' :: rest) from by
              simp [escList, escChar]]
          rw [parseStrBody.eq_def]
          simp [decodeEsc, ih rest]
        · rw [show escList (c :: t) ++ '"' :: rest
                = c :: (escList t ++ '"' :: rest) from by
              simp [escList, escChar, hq, hb]]
          rw [parseStrBody.eq_def]
          simp [hq, hb, ih rest]

/- ### Structural induction principles for the list-shaped sorts -/

theorem jsonListInd {motive : JsonList → Prop} (hnil : motive .nil)
    (hcons : ∀ v t, motive t → motive (.cons v t)) : ∀ l, motive l
  | .nil => hnil
  | .cons v t => hcons v t (jsonListInd hnil hcons t)

theorem jsonObjInd {motive : JsonObj → Prop} (hnil : motive .nil)
    (hcons : ∀ k v t, motive t → motive (.cons k v t)) : ∀ o, motive o
  | .nil => hnil
  | .cons k v t => hcons k v t (jsonObjInd hnil hcons t)

/- ### Unfolding equations, stated once so `simp` can use them -/

@[simp] theorem keys_nil : JsonObj.keys .nil = [] := rfl
@[simp] theorem keys_cons (k : String) (v : Json) (t : JsonObj) :
    (JsonObj.cons k v t).keys = k :: t.keys := rfl
@[simp] theorem lookup_nil (k : String) : JsonObj.lookup .nil k = none := rfl
@[simp] theorem lookup_cons (k' : String) (v : Json) (t : JsonObj) (k : String) :
    (JsonObj.cons k' v t).lookup k = if k' = k then some v else t.lookup k := rfl
@[simp] theorem keyAbsent_nil (k : String) : JsonObj.keyAbsent .nil k = true := rfl
@[simp] theorem keyAbsent_cons (k' : String) (v : Json) (t : JsonObj) (k : String) :
    (JsonObj.cons k' v t).keyAbsent k = ((k' != k) && t.keyAbsent k) := rfl
@[simp] theorem append_nil_left (p : JsonObj) : JsonObj.append .nil p = p := rfl
@[simp] theorem append_cons (k : String) (v : Json) (t p : JsonObj) :
    (JsonObj.cons k v t).append p = .cons k v (t.append p) := rfl
@[simp] theorem filterKeys_nil (p : String → Bool) :
    JsonObj.filterKeys p .nil = .nil := rfl
@[simp] theorem filterKeys_cons (p : String → Bool) (k : String) (v : Json)
    (t : JsonObj) :
    (JsonObj.cons k v t).filterKeys p
      = if p k then .cons k v (t.filterKeys p) else t.filterKeys p := rfl
@[simp] theorem insertOD_nil (k : String) (v : Json) :
    insertOD .nil k v = .cons k v .nil := rfl
@[simp] theorem insertOD_cons (k' : String) (v' : Json) (t : JsonObj)
    (k : String) (v : Json) :
    insertOD (.cons k' v' t) k v
      = if k' = k then .cons k' v t else .cons k' v' (insertOD t k v) := rfl
@[simp] theorem buildDict_nil (acc : JsonObj) : buildDict acc .nil = acc := rfl
@[simp] theorem buildDict_cons (acc : JsonObj) (k : String) (v : Json)
    (t : JsonObj) : buildDict acc (.cons k v t) = buildDict (insertOD acc k v) t := rfl
@[simp] theorem toPairs_nil : JsonObj.toPairs .nil = [] := rfl
@[simp] theorem toPairs_cons (k : String) (v : Json) (t : JsonObj) :
    (JsonObj.cons k v t).toPairs = (k, v) :: t.toPairs := rfl

@[simp] theorem jsonWF_null : jsonWF .null = true := rfl
@[simp] theorem jsonWF_bool (b : Bool) : jsonWF (.bool b) = true := rfl
@[simp] theorem jsonWF_num (i : Int) : jsonWF (.num i) = true := rfl
@[simp] theorem jsonWF_str (s : String) : jsonWF (.str s) = true := rfl
@[simp] theorem jsonWF_arr (l : JsonList) : jsonWF (.arr l) = jsonWFList l := rfl
@[simp] theorem jsonWF_obj (o : JsonObj) : jsonWF (.obj o) = jsonWFObj o := rfl
@[simp] theorem jsonWFList_nil : jsonWFList .nil = true := rfl
@[simp] theorem jsonWFList_cons (v : Json) (t : JsonList) :
    jsonWFList (.cons v t) = (jsonWF v && jsonWFList t) := rfl
@[simp] theorem jsonWFObj_nil : jsonWFObj .nil = true := rfl
@[simp] theorem jsonWFObj_cons (k : String) (v : Json) (t : JsonObj) :
    jsonWFObj (.cons k v t) = (t.keyAbsent k && jsonWF v && jsonWFObj t) := rfl

theorem dumpsChars_null : dumpsChars .null = ['n', 'u', 'l', 'l'] := rfl

theorem dumpsChars_true : dumpsChars (.bool true) = ['t', 'r', 'u', 'e'] := rfl

theorem dumpsChars_false : dumpsChars (.bool false) = ['f', 'a', 'l', 's', 'e'] := rfl

theorem dumpsChars_num (i : Int) : dumpsChars (.num i) = intChars i := rfl

theorem dumpsChars_str (s : String) : dumpsChars (.str s) = quoteChars s := rfl

theorem dumpsChars_arr (l : JsonList) :
    dumpsChars (.arr l) = '[' :: (dumpsArrChars l ++ [']']) := rfl

theorem dumpsChars_obj (o : JsonObj) :
    dumpsChars (.obj o) = '{' :: (dumpsObjChars o ++ ['}']) := rfl

theorem dumpsArrChars_nil : dumpsArrChars .nil = [] := rfl

theorem dumpsArrChars_single (v : Json) :
    dumpsArrChars (.cons v .nil) = dumpsChars v := rfl

theorem dumpsArrChars_cons2 (v w : Json) (t : JsonList) :
    dumpsArrChars (.cons v (.cons w t))
      = dumpsChars v ++ ',' :: ' ' :: dumpsArrChars (.cons w t) := rfl

theorem dumpsObjChars_nil : dumpsObjChars .nil = [] := rfl

theorem dumpsObjChars_single (k : String) (v : Json) :
    dumpsObjChars (.cons k v .nil) = quoteChars k ++ ':' :: ' ' :: dumpsChars v := rfl

theorem dumpsObjChars_cons2 (k : String) (v : Json) (k' : String) (w : Json)
    (t : JsonObj) :
    dumpsObjChars (.cons k v (.cons k' w t))
      = quoteChars k ++ ':' :: ' ' :: dumpsChars v ++
          ',' :: ' ' :: dumpsObjChars (.cons k' w t) := rfl

theorem fuelV_null : fuelV .null = 1 := rfl

theorem fuelV_bool (b : Bool) : fuelV (.bool b) = 1 := rfl

theorem fuelV_num (i : Int) : fuelV (.num i) = 1 := rfl

theorem fuelV_str (s : String) : fuelV (.str s) = 1 := rfl

theorem fuelV_arr (l : JsonList) : fuelV (.arr l) = 1 + fuelA l := rfl

theorem fuelV_obj (o : JsonObj) : fuelV (.obj o) = 1 + fuelO o := rfl

theorem fuelA_nil : fuelA .nil = 0 := rfl

theorem fuelA_cons (v : Json) (t : JsonList) :
    fuelA (.cons v t) = 1 + fuelV v + fuelA t := rfl

theorem fuelO_nil : fuelO .nil = 0 := rfl

theorem fuelO_cons (k : String) (v : Json) (t : JsonObj) :
    fuelO (.cons k v t) = 1 + fuelV v + fuelO t := rfl

theorem fuelV_pos (v : Json) : 1 ≤ fuelV v := by
  cases v <;>
    simp only [fuelV_null, fuelV_bool, fuelV_num, fuelV_str, fuelV_arr, fuelV_obj] <;>
    omega

/- ### buildDict over pairwise-distinct keys is the identity -/

theorem append_nil_right (o : JsonObj) : o.append .nil = o := by
  induction o using jsonObjInd with
  | hnil => rfl
  | hcons k v t ih => simp [ih]

theorem append_assoc' (o p q : JsonObj) :
    (o.append p).append q = o.append (p.append q) := by
  induction o using jsonObjInd with
  | hnil => rfl
  | hcons k v t ih => simp [ih]

theorem keyAbsent_append (o p : JsonObj) (k : String) :
    (o.append p).keyAbsent k = (o.keyAbsent k && p.keyAbsent k) := by
  induction o using jsonObjInd with
  | hnil => simp
  | hcons k' v t ih => simp [ih, Bool.and_assoc]

theorem insertOD_absent {o : JsonObj} {k : String} {v : Json}
    (h : o.keyAbsent k = true) :
    insertOD o k v = o.append (.cons k v .nil) := by
  induction o using jsonObjInd with
  | hnil => rfl
  | hcons k' w t ih =>
      simp only [keyAbsent_cons, Bool.and_eq_true, bne_iff_ne] at h
      simp [h.1, ih h.2]

@[simp] theorem freshB_nil (acc : JsonObj) : freshB .nil acc = true := rfl
@[simp] theorem freshB_cons (k : String) (v : Json) (t acc : JsonObj) :
    freshB (.cons k v t) acc = (acc.keyAbsent k && freshB t acc) := rfl

theorem freshB_nil_acc (o : JsonObj) : freshB o .nil = true := by
  induction o using jsonObjInd with
  | hnil => rfl
  | hcons k v t ih => simp [ih]

theorem freshB_append_single {t acc : JsonObj} {k : String} {v : Json}
    (h1 : freshB t acc = true) (h2 : t.keyAbsent k = true) :
    freshB t (acc.append (.cons k v .nil)) = true := by
  induction t using jsonObjInd with
  | hnil => rfl
  | hcons k2 v2 t2 ih =>
      simp only [freshB_cons, Bool.and_eq_true] at h1
      simp only [keyAbsent_cons, Bool.and_eq_true, bne_iff_ne] at h2
      simp only [freshB_cons, Bool.and_eq_true, keyAbsent_append]
      exact ⟨⟨h1.1, by simp [bne_iff_ne, Ne.symm h2.1]⟩, ih h1.2 h2.2⟩

theorem buildDict_fresh {t : JsonObj} :
    ∀ {acc : JsonObj}, jsonWFObj t = true → freshB t acc = true →
      buildDict acc t = acc.append t := by
  induction t using jsonObjInd with
  | hnil => intro acc _ _; simp [append_nil_right]
  | hcons k v t ih =>
      intro acc hwf hf
      simp only [jsonWFObj_cons, Bool.and_eq_true] at hwf
      simp only [freshB_cons, Bool.and_eq_true] at hf
      rw [buildDict_cons, insertOD_absent hf.1,
        ih hwf.2 (freshB_append_single hf.2 hwf.1.1), append_assoc']
      rfl

theorem buildDict_self {o : JsonObj} (h : jsonWFObj o = true) :
    buildDict .nil o = o :=
  buildDict_fresh h (freshB_nil_acc o)

/- ### Heads of serialized values -/

theorem digit_not_special {c : Char} (h : c.isDigit = true) :
    isWsChar c = false ∧ c ≠ ']' ∧ c ≠ '}' :=
  ⟨not_ws_of_digit h, digit_ne_rbracket h, digit_ne_rbrace h⟩

theorem natChars_head (n : Nat) :
    ∃ c t, natChars n = c :: t ∧ c.isDigit = true := by
  obtain ⟨c, t, hct⟩ := List.exists_cons_of_ne_nil (natChars_ne_nil n)
  exact ⟨c, t, hct, natChars_digits n c (hct ▸ List.mem_cons_self c t)⟩

theorem dumpsChars_head (v : Json) :
    ∃ c t, dumpsChars v = c :: t ∧ isWsChar c = false ∧ c ≠ ']' ∧ c ≠ '}' := by
  cases v with
  | null => exact ⟨'n', _, dumpsChars_null, by decide, by decide, by decide⟩
  | bool b =>
      cases b
      · exact ⟨'f', _, dumpsChars_false, by decide, by decide, by decide⟩
      · exact ⟨'t', _, dumpsChars_true, by decide, by decide, by decide⟩
  | num i =>
      rw [dumpsChars_num]
      unfold intChars
      by_cases hi : i < 0
      · exact ⟨'-', _, by rw [if_pos hi], by decide, by decide, by decide⟩
      · obtain ⟨c, t, hct, hd⟩ := natChars_head i.toNat
        obtain ⟨h1, h2, h3⟩ := digit_not_special hd
        exact ⟨c, t, by rw [if_neg hi, hct], h1, h2, h3⟩
  | str s =>
      exact ⟨'"', _, dumpsChars_str s, by decide, by decide, by decide⟩
  | arr l => exact ⟨'[', _, dumpsChars_arr l, by decide, by decide, by decide⟩
  | obj o => exact ⟨'{', _, dumpsChars_obj o, by decide, by decide, by decide⟩

theorem dumpsArrChars_head {l : JsonList} (h : l ≠ .nil) :
    ∃ c t, dumpsArrChars l = c :: t ∧ isWsChar c = false ∧ c ≠ ']' ∧ c ≠ '}' := by
  cases l with
  | nil => exact absurd rfl h
  | cons v t =>
      obtain ⟨c, t0, hct, h1, h2, h3⟩ := dumpsChars_head v
      cases t with
      | nil => exact ⟨c, t0, by rw [dumpsArrChars_single, hct], h1, h2, h3⟩
      | cons w t2 =>
          exact ⟨c, _, by rw [dumpsArrChars_cons2, hct, List.cons_append], h1, h2, h3⟩

theorem dumpsObjChars_head {o : JsonObj} (h : o ≠ .nil) :
    ∃ t, dumpsObjChars o = '"' :: t := by
  cases o with
  | nil => exact absurd rfl h
  | cons k v t =>
      cases t with
      | nil => exact ⟨_, by rw [dumpsObjChars_single]; rfl⟩
      | cons k' w t2 => exact ⟨_, by rw [dumpsObjChars_cons2]; rfl⟩

theorem skipWs_dumpsChars (v : Json) (rest : List Char) :
    skipWs (dumpsChars v ++ rest) = dumpsChars v ++ rest := by
  obtain ⟨c, t, hct, h1, -, -⟩ := dumpsChars_head v
  rw [hct, List.cons_append]
  exact skipWs_cons_not h1

theorem skipWs_dumpsArrChars {l : JsonList} (h : l ≠ .nil) (rest : List Char) :
    skipWs (dumpsArrChars l ++ rest) = dumpsArrChars l ++ rest := by
  obtain ⟨c, t, hct, h1, -, -⟩ := dumpsArrChars_head h
  rw [hct, List.cons_append]
  exact skipWs_cons_not h1

theorem skipWs_dumpsObjChars {o : JsonObj} (h : o ≠ .nil) (rest : List Char) :
    skipWs (dumpsObjChars o ++ rest) = dumpsObjChars o ++ rest := by
  obtain ⟨t, ht⟩ := dumpsObjChars_head h
  rw [ht, List.cons_append]
  exact skipWs_cons_not (by decide)

theorem noDig_nil : noDigitHead [] := by
  intro c h
  simp at h

theorem noDig_cons {c : Char} (rest : List Char) (h : c.isDigit = false) :
    noDigitHead (c :: rest) := by
  intro d hd
  simp only [List.head?_cons, Option.some.injEq] at hd
  rwa [← hd]

/- ### The parser fuel needed for a serialized value is at most its length -/

theorem fuel_le_len :
    ∀ n : Nat,
      (∀ v : Json, fuelV v ≤ n → fuelV v ≤ (dumpsChars v).length) ∧
      (∀ l : JsonList, fuelA l ≤ n → fuelA l ≤ (dumpsArrChars l).length + 1) ∧
      (∀ o : JsonObj, fuelO o ≤ n → fuelO o ≤ (dumpsObjChars o).length + 1) := by
  intro n
  induction n with
  | zero =>
      refine ⟨fun v hv => absurd hv (by have := fuelV_pos v; omega), ?_, ?_⟩
      · intro l hl
        cases l with
        | nil => simp [fuelA_nil]
        | cons v t => rw [fuelA_cons] at hl; exact absurd hl (by omega)
      · intro o ho
        cases o with
        | nil => simp [fuelO_nil]
        | cons k v t => rw [fuelO_cons] at ho; exact absurd ho (by omega)
  | succ n ih =>
      obtain ⟨ihV, ihA, ihO⟩ := ih
      refine ⟨?_, ?_, ?_⟩
      · intro v hv
        cases v with
        | null => rw [fuelV_null, dumpsChars_null]; simp
        | bool b =>
            cases b
            · rw [fuelV_bool, dumpsChars_false]; simp
            · rw [fuelV_bool, dumpsChars_true]; simp
        | num i =>
            rw [fuelV_num, dumpsChars_num]
            unfold intChars
            by_cases hi : i < 0
            · rw [if_pos hi]; simp
            · rw [if_neg hi]
              have := List.length_pos.mpr (natChars_ne_nil i.toNat)
              omega
        | str s =>
            rw [fuelV_str, dumpsChars_str]
            unfold quoteChars
            simp
        | arr l =>
            rw [fuelV_arr] at hv ⊢
            rw [dumpsChars_arr]
            have := ihA l (by omega)
            simp only [List.length_cons, List.length_append, List.length_singleton]
            omega
        | obj o =>
            rw [fuelV_obj] at hv ⊢
            rw [dumpsChars_obj]
            have := ihO o (by omega)
            simp only [List.length_cons, List.length_append, List.length_singleton]
            omega
      · intro l hl
        cases l with
        | nil => simp [fuelA_nil]
        | cons v t =>
            rw [fuelA_cons] at hl ⊢
            have hV := ihV v (by omega)
            cases t with
            | nil =>
                rw [dumpsArrChars_single, fuelA_nil]
                omega
            | cons w t2 =>
                have hA := ihA (.cons w t2) (by rw [fuelA_cons] at hl ⊢; omega)
                rw [dumpsArrChars_cons2]
                simp only [List.length_append, List.length_cons]
                omega
      · intro o ho
        cases o with
        | nil => simp [fuelO_nil]
        | cons k v t =>
            rw [fuelO_cons] at ho ⊢
            have hV := ihV v (by omega)
            cases t with
            | nil =>
                rw [dumpsObjChars_single, fuelO_nil]
                simp only [List.length_append, List.length_cons]
                omega
            | cons k' w t2 =>
                have hO := ihO (.cons k' w t2) (by rw [fuelO_cons] at ho ⊢; omega)
                rw [dumpsObjChars_cons2]
                simp only [List.length_append, List.length_cons]
                omega

theorem fuelV_le_length (v : Json) : fuelV v ≤ (dumpsChars v).length :=
  (fuel_le_len (fuelV v)).1 v le_rfl

theorem parse_dumps :
    ∀ n : Nat,
      (∀ (v : Json) (cs rest : List Char), fuelV v ≤ n → jsonWF v = true →
          noDigitHead rest → skipWs cs = dumpsChars v ++ rest →
          parseValue n cs = some (v, rest)) ∧
      (∀ (l : JsonList) (cs rest : List Char), l ≠ .nil → fuelA l ≤ n →
          jsonWFList l = true → skipWs cs = dumpsArrChars l ++ ']' :: rest →
          parseArrLoop n cs = some (l, rest)) ∧
      (∀ (o : JsonObj) (cs rest : List Char), o ≠ .nil → fuelO o ≤ n →
          jsonWFObj o = true → skipWs cs = dumpsObjChars o ++ '}' :: rest →
          parseObjLoop n cs = some (o, rest)) := by
  intro n
  induction n with
  | zero =>
      refine ⟨?_, ?_, ?_⟩
      · intro v _ _ hfv _ _ _
        exact absurd hfv (by have := fuelV_pos v; omega)
      · intro l _ _ hne hfl _ _
        cases l with
        | nil => exact absurd rfl hne
        | cons x xs => rw [fuelA_cons] at hfl; exact absurd hfl (by omega)
      · intro o _ _ hne hfo _ _
        cases o with
        | nil => exact absurd rfl hne
        | cons k v t => rw [fuelO_cons] at hfo; exact absurd hfo (by omega)
  | succ n ih =>
      obtain ⟨ihV, ihA, ihO⟩ := ih
      refine ⟨?_, ?_, ?_⟩
      · -- parseValue
        intro v cs rest hfv hwf hrest hcs
        cases v with
        | null =>
            rw [dumpsChars_null] at hcs
            simp only [List.cons_append, List.nil_append] at hcs
            rw [parseValue.eq_def]
            simp +decide [hcs]
        | bool b =>
            cases b
            · rw [dumpsChars_false] at hcs
              simp only [List.cons_append, List.nil_append] at hcs
              rw [parseValue.eq_def]
              simp +decide [hcs]
            · rw [dumpsChars_true] at hcs
              simp only [List.cons_append, List.nil_append] at hcs
              rw [parseValue.eq_def]
              simp +decide [hcs]
        | num i =>
            rw [dumpsChars_num] at hcs
            unfold intChars at hcs
            by_cases hi : i < 0
            · rw [if_pos hi, List.cons_append] at hcs
              have hpn : parseNat (natChars i.natAbs ++ rest)
                  = some (i.natAbs, rest) := parseNat_natChars hrest
              rw [parseValue.eq_def]
              simp +decide [hcs, hpn]
              rw [abs_of_neg hi, neg_neg]
            · rw [if_neg hi] at hcs
              obtain ⟨c, t, hct, hd⟩ := natChars_head i.toNat
              rw [hct, List.cons_append] at hcs
              have hpn : parseNat (c :: (t ++ rest)) = some (i.toNat, rest) := by
                rw [show c :: (t ++ rest) = natChars i.toNat ++ rest from by
                  rw [hct, List.cons_append]]
                exact parseNat_natChars hrest
              rw [parseValue.eq_def]
              simp +decide [hcs, hd, hpn,
                Int.toNat_of_nonneg (show (0 : Int) ≤ i by omega)]
        | str s =>
            obtain ⟨sd⟩ := s
            rw [dumpsChars_str] at hcs
            unfold quoteChars at hcs
            simp only [List.cons_append, List.append_assoc,
              List.singleton_append, List.nil_append] at hcs
            rw [parseValue.eq_def]
            simp +decide [hcs, parseStrBody_escList]
        | arr l =>
            rw [fuelV_arr] at hfv
            rw [jsonWF_arr] at hwf
            cases l with
            | nil =>
                rw [dumpsChars_arr, dumpsArrChars_nil] at hcs
                simp only [List.nil_append, List.cons_append,
                  List.singleton_append] at hcs
                have hsk : skipWs (']' :: rest) = ']' :: rest :=
                  skipWs_cons_not (by decide)
                rw [parseValue.eq_def]
                simp +decide [hcs, hsk]
            | cons x xs =>
                have hlne : JsonList.cons x xs ≠ .nil := fun h => by cases h
                rw [dumpsChars_arr] at hcs
                simp only [List.cons_append, List.append_assoc,
                  List.singleton_append, List.nil_append] at hcs
                obtain ⟨c0, t0, hct0, hw0, hr0, -⟩ := dumpsArrChars_head hlne
                have hskip : skipWs (dumpsArrChars (JsonList.cons x xs) ++ ']' :: rest)
                    = dumpsArrChars (JsonList.cons x xs) ++ ']' :: rest :=
                  skipWs_dumpsArrChars hlne _
                have hhd : (dumpsArrChars (JsonList.cons x xs) ++ ']' :: rest).head?
                    = some c0 := by rw [hct0, List.cons_append]; rfl
                have harr := ihA (JsonList.cons x xs) _ rest hlne (by omega) hwf hskip
                rw [parseValue.eq_def]
                simp +decide [hcs, hskip, hhd, hr0, harr]
        | obj o =>
            rw [fuelV_obj] at hfv
            rw [jsonWF_obj] at hwf
            cases o with
            | nil =>
                rw [dumpsChars_obj, dumpsObjChars_nil] at hcs
                simp only [List.nil_append, List.cons_append,
                  List.singleton_append] at hcs
                have hsk : skipWs ('}' :: rest) = '}' :: rest :=
                  skipWs_cons_not (by decide)
                rw [parseValue.eq_def]
                simp +decide [hcs, hsk]
            | cons k v t =>
                have hone : JsonObj.cons k v t ≠ .nil := fun h => by cases h
                rw [dumpsChars_obj] at hcs
                simp only [List.cons_append, List.append_assoc,
                  List.singleton_append, List.nil_append] at hcs
                obtain ⟨t0, hct0⟩ := dumpsObjChars_head hone
                have hskip : skipWs (dumpsObjChars (JsonObj.cons k v t) ++ '}' :: rest)
                    = dumpsObjChars (JsonObj.cons k v t) ++ '}' :: rest :=
                  skipWs_dumpsObjChars hone _
                have hhd : (dumpsObjChars (JsonObj.cons k v t) ++ '}' :: rest).head?
                    = some '"' := by rw [hct0, List.cons_append]; rfl
                have hobj := ihO (JsonObj.cons k v t) _ rest hone (by omega) hwf hskip
                rw [parseValue.eq_def]
                simp +decide [hcs, hskip, hhd, hobj, buildDict_self hwf]
      · -- parseArrLoop
        intro l cs rest hne hfl hwf hcs
        cases l with
        | nil => exact absurd rfl hne
        | cons x xs =>
            rw [fuelA_cons] at hfl
            simp only [jsonWFList_cons, Bool.and_eq_true] at hwf
            cases xs with
            | nil =>
                rw [dumpsArrChars_single] at hcs
                have hV := ihV x cs (']' :: rest) (by omega) hwf.1
                  (noDig_cons rest (by decide)) hcs
                have hsk : skipWs (']' :: rest) = ']' :: rest :=
                  skipWs_cons_not (by decide)
                rw [parseArrLoop.eq_def]
                simp +decide [hV, hsk]
            | cons y ys =>
                rw [dumpsArrChars_cons2] at hcs
                simp only [List.cons_append, List.append_assoc] at hcs
                have hV := ihV x cs
                  (',' :: ' ' :: (dumpsArrChars (.cons y ys) ++ ']' :: rest))
                  (by omega) hwf.1 (noDig_cons _ (by decide)) hcs
                have hyne : JsonList.cons y ys ≠ .nil := fun h => by cases h
                have hsk : skipWs (',' :: ' ' :: (dumpsArrChars (JsonList.cons y ys) ++ ']' :: rest))
                    = ',' :: ' ' :: (dumpsArrChars (JsonList.cons y ys) ++ ']' :: rest) :=
                  skipWs_cons_not (by decide)
                have hskip2 : skipWs (' ' :: (dumpsArrChars (JsonList.cons y ys) ++ ']' :: rest))
                    = dumpsArrChars (JsonList.cons y ys) ++ ']' :: rest := by
                  rw [skipWs_cons_ws (by decide)]
                  exact skipWs_dumpsArrChars hyne _
                have hA := ihA (JsonList.cons y ys) _ rest hyne (by omega) hwf.2 hskip2
                rw [parseArrLoop.eq_def]
                simp +decide [hV, hsk, hA]
      · -- parseObjLoop
        intro o cs rest hne hfo hwf hcs
        cases o with
        | nil => exact absurd rfl hne
        | cons k v t =>
            rw [fuelO_cons] at hfo
            simp only [jsonWFObj_cons, Bool.and_eq_true] at hwf
            obtain ⟨kd⟩ := k
            cases t with
            | nil =>
                rw [dumpsObjChars_single] at hcs
                unfold quoteChars at hcs
                simp only [List.cons_append, List.append_assoc,
                  List.singleton_append, List.nil_append] at hcs
                have hV := ihV v (' ' :: (dumpsChars v ++ '}' :: rest)) ('}' :: rest)
                  (by omega) hwf.1.2 (noDig_cons _ (by decide))
                  (by rw [skipWs_cons_ws (by decide)]; exact skipWs_dumpsChars v _)
                have hsk3 : skipWs (':' :: ' ' :: (dumpsChars v ++ '}' :: rest))
                    = ':' :: ' ' :: (dumpsChars v ++ '}' :: rest) :=
                  skipWs_cons_not (by decide)
                have hsk4 : skipWs ('}' :: rest) = '}' :: rest :=
                  skipWs_cons_not (by decide)
                rw [parseObjLoop.eq_def]
                simp +decide [hcs, parseStrBody_escList, hsk3, hsk4, hV]
            | cons k2 w t2 =>
                rw [dumpsObjChars_cons2] at hcs
                unfold quoteChars at hcs
                simp only [List.cons_append, List.append_assoc,
                  List.singleton_append, List.nil_append] at hcs
                have hV := ihV v
                  (' ' :: (dumpsChars v ++ ',' :: ' ' :: (dumpsObjChars (.cons k2 w t2) ++ '}' :: rest)))
                  (',' :: ' ' :: (dumpsObjChars (.cons k2 w t2) ++ '}' :: rest))
                  (by omega) hwf.1.2 (noDig_cons _ (by decide))
                  (by rw [skipWs_cons_ws (by decide)]; exact skipWs_dumpsChars v _)
                have htne : JsonObj.cons k2 w t2 ≠ .nil := fun h => by cases h
                have hsk3 : skipWs (':' :: ' ' :: (dumpsChars v ++ ',' :: ' ' :: (dumpsObjChars (JsonObj.cons k2 w t2) ++ '}' :: rest)))
                    = ':' :: ' ' :: (dumpsChars v ++ ',' :: ' ' :: (dumpsObjChars (JsonObj.cons k2 w t2) ++ '}' :: rest)) :=
                  skipWs_cons_not (by decide)
                have hsk5 : skipWs (',' :: ' ' :: (dumpsObjChars (JsonObj.cons k2 w t2) ++ '}' :: rest))
                    = ',' :: ' ' :: (dumpsObjChars (JsonObj.cons k2 w t2) ++ '}' :: rest) :=
                  skipWs_cons_not (by decide)
                have hskip2 : skipWs (' ' :: (dumpsObjChars (JsonObj.cons k2 w t2) ++ '}' :: rest))
                    = dumpsObjChars (JsonObj.cons k2 w t2) ++ '}' :: rest := by
                  rw [skipWs_cons_ws (by decide)]
                  exact skipWs_dumpsObjChars htne _
                have hO := ihO (JsonObj.cons k2 w t2) _ rest htne (by omega) hwf.2 hskip2
                rw [parseObjLoop.eq_def]
                simp +decide [hcs, parseStrBody_escList, hsk3, hsk5, hV, hO]

/-- The round trip at the heart of the options lifecycle: serializing any
well-formed JSON value and decoding it again is the identity.  (Python
guarantees the well-formedness side condition: a dict cannot hold
duplicate keys.) -/
theorem json_loads_dumps (v : Json) (h : jsonWF v = true) :
    json_loads (json_dumps v) = some v := by
  unfold json_loads json_dumps
  have hlen : (String.mk (dumpsChars v)).length = (dumpsChars v).length := rfl
  have hdata : (String.mk (dumpsChars v)).data = dumpsChars v := rfl
  rw [hlen, hdata]
  have hfuel : fuelV v ≤ (dumpsChars v).length + 1 := by
    have := fuelV_le_length v
    omega
  have hskip : skipWs (dumpsChars v) = dumpsChars v ++ [] := by
    rw [List.append_nil]
    have := skipWs_dumpsChars v []
    rwa [List.append_nil] at this
  have hp := (parse_dumps ((dumpsChars v).length + 1)).1 v (dumpsChars v) []
    hfuel h noDig_nil hskip
  rw [hp]
  simp [skipWs]

/- ### Sorting lemmas -/

@[simp] theorem insSortedBy_nil {α : Type} (lt : α → α → Bool) (x : α) :
    insSortedBy lt x [] = [x] := rfl
@[simp] theorem insSortedBy_cons {α : Type} (lt : α → α → Bool) (x y : α)
    (ys : List α) :
    insSortedBy lt x (y :: ys)
      = if lt y x then y :: insSortedBy lt x ys else x :: y :: ys := rfl
@[simp] theorem sortListBy_nil {α : Type} (lt : α → α → Bool) :
    sortListBy lt [] = [] := rfl
@[simp] theorem sortListBy_cons {α : Type} (lt : α → α → Bool) (x : α)
    (xs : List α) :
    sortListBy lt (x :: xs) = insSortedBy lt x (sortListBy lt xs) := rfl

theorem insSortedBy_perm {α : Type} (lt : α → α → Bool) (x : α) :
    ∀ l : List α, (insSortedBy lt x l).Perm (x :: l) := by
  intro l
  induction l with
  | nil => simp
  | cons y ys ih =>
      rw [insSortedBy_cons]
      by_cases h : lt y x = true
      · rw [if_pos h]
        exact (ih.cons y).trans (List.Perm.swap x y ys)
      · rw [if_neg h]

theorem sortListBy_perm {α : Type} (lt : α → α → Bool) :
    ∀ l : List α, (sortListBy lt l).Perm l := by
  intro l
  induction l with
  | nil => simp
  | cons x xs ih =>
      rw [sortListBy_cons]
      exact (insSortedBy_perm lt x (sortListBy lt xs)).trans (ih.cons x)

theorem insSortedBy_pairwise {α : Type} {lt : α → α → Bool}
    (hasymm : ∀ a b, lt a b = true → lt b a = false)
    (hneg : ∀ a b c, lt b a = false → lt c b = false → lt c a = false)
    (x : α) :
    ∀ l : List α, l.Pairwise (fun a b => lt b a = false) →
      (insSortedBy lt x l).Pairwise (fun a b => lt b a = false) := by
  intro l
  induction l with
  | nil => intro _; simp
  | cons y ys ih =>
      intro hl
      rw [List.pairwise_cons] at hl
      rw [insSortedBy_cons]
      by_cases h : lt y x = true
      · rw [if_pos h]
        rw [List.pairwise_cons]
        refine ⟨?_, ih hl.2⟩
        intro b hb
        rcases List.mem_cons.mp ((insSortedBy_perm lt x ys).mem_iff.mp hb) with
          rfl | hb
        · exact hasymm y b h
        · exact hl.1 b hb
      · rw [if_neg h]
        rw [List.pairwise_cons]
        refine ⟨?_, by rw [List.pairwise_cons]; exact hl⟩
        intro b hb
        rcases List.mem_cons.mp hb with rfl | hb
        · exact Bool.eq_false_iff.mpr h
        · exact hneg x y b (Bool.eq_false_iff.mpr h) (hl.1 b hb)

theorem sortListBy_pairwise {α : Type} {lt : α → α → Bool}
    (hasymm : ∀ a b, lt a b = true → lt b a = false)
    (hneg : ∀ a b c, lt b a = false → lt c b = false → lt c a = false) :
    ∀ l : List α, (sortListBy lt l).Pairwise (fun a b => lt b a = false) := by
  intro l
  induction l with
  | nil => simp
  | cons x xs ih =>
      rw [sortListBy_cons]
      exact insSortedBy_pairwise hasymm hneg x _ ih

theorem insSortedBy_filter_pos {α : Type} {lt : α → α → Bool} {q : α → Bool}
    {x : α} (hqx : q x = true)
    (hcomp : ∀ y, lt y x = true → q y = false) :
    ∀ l : List α, (insSortedBy lt x l).filter q = x :: l.filter q := by
  intro l
  induction l with
  | nil => simp [hqx]
  | cons y ys ih =>
      rw [insSortedBy_cons]
      by_cases h : lt y x = true
      · rw [if_pos h]
        rw [List.filter_cons, List.filter_cons]
        rw [hcomp y h]
        simpa using ih
      · rw [if_neg h, List.filter_cons, hqx]
        simp

theorem insSortedBy_filter_neg {α : Type} {lt : α → α → Bool} {q : α → Bool}
    {x : α} (hqx : q x = false) :
    ∀ l : List α, (insSortedBy lt x l).filter q = l.filter q := by
  intro l
  induction l with
  | nil => simp [hqx]
  | cons y ys ih =>
      rw [insSortedBy_cons]
      by_cases h : lt y x = true
      · rw [if_pos h, List.filter_cons, List.filter_cons]
        rw [ih]
      · rw [if_neg h, List.filter_cons, hqx]
        simp

theorem sortListBy_filter {α : Type} {lt : α → α → Bool} {q : α → Bool}
    (hcomp : ∀ x y, q x = true → lt y x = true → q y = false) :
    ∀ l : List α, (sortListBy lt l).filter q = l.filter q := by
  intro l
  induction l with
  | nil => simp
  | cons x xs ih =>
      rw [sortListBy_cons, List.filter_cons]
      by_cases hx : q x = true
      · rw [insSortedBy_filter_pos hx (fun y hy => hcomp x y hx hy), ih]
        simp [hx]
      · rw [insSortedBy_filter_neg (Bool.eq_false_iff.mpr hx), ih]
        simp [hx]

/- ### The string comparison is a strict total order -/

theorem strLtList_nil_r (as : List Char) : strLtList as [] = false := by
  cases as <;> rfl

theorem strLtList_cons_cons (a : Char) (as : List Char) (b : Char)
    (bs : List Char) :
    strLtList (a :: as) (b :: bs)
      = if a.toNat < b.toNat then true
        else if b.toNat < a.toNat then false
        else strLtList as bs := rfl

theorem strLtList_asymm :
    ∀ as bs, strLtList as bs = true → strLtList bs as = false := by
  intro as
  induction as with
  | nil =>
      intro bs _
      exact strLtList_nil_r bs
  | cons a as ih =>
      intro bs h
      cases bs with
      | nil => rw [strLtList_nil_r] at h; exact absurd h (by simp)
      | cons b bs =>
          rw [strLtList_cons_cons] at h
          rw [strLtList_cons_cons]
          by_cases h1 : a.toNat < b.toNat
          · rw [if_neg (by omega), if_pos h1]
          · rw [if_neg h1] at h
            by_cases h2 : b.toNat < a.toNat
            · rw [if_pos h2] at h
              exact absurd h (by simp)
            · rw [if_neg h2] at h
              rw [if_neg (by omega), if_neg (by omega)]
              exact ih bs h

theorem strLtList_negtrans :
    ∀ as bs cs, strLtList as bs = false → strLtList bs cs = false →
      strLtList as cs = false := by
  intro as
  induction as with
  | nil =>
      intro bs cs h1 h2
      cases cs with
      | nil => exact strLtList_nil_r []
      | cons c cs =>
          cases bs with
          | nil => exact absurd h2 (by simp [strLtList])
          | cons b bs => exact absurd h1 (by simp [strLtList])
  | cons a as ih =>
      intro bs cs h1 h2
      cases cs with
      | nil => exact strLtList_nil_r _
      | cons c cs =>
          cases bs with
          | nil => exact absurd h2 (by simp [strLtList])
          | cons b bs =>
              rw [strLtList_cons_cons] at h1 h2 ⊢
              by_cases hab : a.toNat < b.toNat
              · rw [if_pos hab] at h1
                exact absurd h1 (by simp)
              · rw [if_neg hab] at h1
                by_cases hbc : b.toNat < c.toNat
                · rw [if_pos hbc] at h2
                  exact absurd h2 (by simp)
                · rw [if_neg hbc] at h2
                  by_cases hba : b.toNat < a.toNat
                  · rw [if_neg (by omega), if_pos (by
                      by_cases hcb : c.toNat < b.toNat <;> omega)]
                  · by_cases hcb : c.toNat < b.toNat
                    · rw [if_neg (by omega), if_pos (by omega)]
                    · rw [if_neg hba] at h1
                      rw [if_neg hcb] at h2
                      rw [if_neg (by omega), if_neg (by omega)]
                      exact ih bs cs h1 h2

theorem pairLt_asymm (a b : String × Json) :
    pairLt a b = true → pairLt b a = false :=
  fun h => strLtList_asymm _ _ h

theorem pairLt_negtrans (a b c : String × Json) :
    pairLt b a = false → pairLt c b = false → pairLt c a = false :=
  fun h1 h2 => strLtList_negtrans _ _ _ h2 h1

theorem posLt_asymm (a b : FormFieldModel) :
    posLt a b = true → posLt b a = false := by
  unfold posLt
  simp only [decide_eq_true_eq, decide_eq_false_iff_not]
  omega

theorem posLt_negtrans (a b c : FormFieldModel) :
    posLt b a = false → posLt c b = false → posLt c a = false := by
  unfold posLt
  simp only [decide_eq_false_iff_not]
  omega

/- ### filterKeys lemmas (sanitization) -/

theorem keys_filterKeys (p : String → Bool) (o : JsonObj) :
    (o.filterKeys p).keys = o.keys.filter p := by
  induction o using jsonObjInd with
  | hnil => rfl
  | hcons k v t ih =>
      by_cases hp : p k = true
      · simp [hp, ih]
      · simp [Bool.eq_false_iff.mpr hp, ih, List.filter_cons]

theorem lookup_filterKeys (p : String → Bool) (o : JsonObj) (k : String)
    (hk : p k = true) :
    (o.filterKeys p).lookup k = o.lookup k := by
  induction o using jsonObjInd with
  | hnil => rfl
  | hcons k' v t ih =>
      by_cases hp : p k' = true
      · rw [filterKeys_cons, if_pos hp, lookup_cons, lookup_cons]
        by_cases he : k' = k
        · rw [if_pos he, if_pos he]
        · rw [if_neg he, if_neg he, ih]
      · have hne : k' ≠ k := fun he => by rw [he] at hp; exact hp hk
        rw [filterKeys_cons, if_neg hp, lookup_cons, if_neg hne, ih]

theorem keyAbsent_filterKeys (p : String → Bool) (o : JsonObj) (k : String)
    (h : o.keyAbsent k = true) :
    (o.filterKeys p).keyAbsent k = true := by
  induction o using jsonObjInd with
  | hnil => rfl
  | hcons k' v t ih =>
      simp only [keyAbsent_cons, Bool.and_eq_true] at h
      by_cases hp : p k' = true
      · rw [filterKeys_cons, if_pos hp]
        simp only [keyAbsent_cons, Bool.and_eq_true]
        exact ⟨h.1, ih h.2⟩
      · rw [filterKeys_cons, if_neg hp]
        exact ih h.2

theorem jsonWFObj_filterKeys (p : String → Bool) (o : JsonObj)
    (h : jsonWFObj o = true) :
    jsonWFObj (o.filterKeys p) = true := by
  induction o using jsonObjInd with
  | hnil => rfl
  | hcons k v t ih =>
      simp only [jsonWFObj_cons, Bool.and_eq_true] at h
      by_cases hp : p k = true
      · rw [filterKeys_cons, if_pos hp]
        simp only [jsonWFObj_cons, Bool.and_eq_true]
        exact ⟨⟨keyAbsent_filterKeys p t k h.1.1, h.1.2⟩, ih h.2⟩
      · rw [filterKeys_cons, if_neg hp]
        exact ih h.2

/- ### OrderedDict over pairwise-distinct keys is the identity -/

@[simp] theorem insertPair_nil (p : String × String) : insertPair [] p = [p] := rfl
@[simp] theorem insertPair_cons (q : String × String)
    (t : List (String × String)) (p : String × String) :
    insertPair (q :: t) p
      = if q.1 = p.1 then (q.1, p.2) :: t else q :: insertPair t p := rfl

theorem insertPair_absent :
    ∀ {acc : List (String × String)} {p : String × String},
      (∀ q ∈ acc, q.1 ≠ p.1) → insertPair acc p = acc ++ [p] := by
  intro acc
  induction acc with
  | nil => intro p _; rfl
  | cons q t ih =>
      intro p h
      rw [insertPair_cons, if_neg (h q (List.mem_cons_self q t))]
      rw [ih fun r hr => h r (List.mem_cons_of_mem q hr)]
      rfl

theorem foldl_insertPair :
    ∀ (l acc : List (String × String)),
      (∀ r ∈ l, ∀ q ∈ acc, q.1 ≠ r.1) → (l.map Prod.fst).Nodup →
      l.foldl insertPair acc = acc ++ l := by
  intro l
  induction l with
  | nil => intro acc _ _; simp
  | cons p t ih =>
      intro acc h hnd
      rw [List.foldl_cons,
        insertPair_absent fun q hq => h p (List.mem_cons_self p t) q hq]
      rw [List.map_cons, List.nodup_cons] at hnd
      rw [ih (acc ++ [p]) ?_ hnd.2]
      · simp
      · intro r hr q hq
        rcases List.mem_append.mp hq with hq | hq
        · exact h r (List.mem_cons_of_mem p hr) q hq
        · rcases List.mem_singleton.mp hq with rfl
          intro he
          exact hnd.1 (he ▸ List.mem_map_of_mem Prod.fst hr)

theorem orderedDictOfPairs_nodup {l : List (String × String)}
    (h : (l.map Prod.fst).Nodup) : orderedDictOfPairs l = l := by
  unfold orderedDictOfPairs
  rw [foldl_insertPair l [] (by simp) h]
  simp

/- ### Options lifecycle helper lemmas -/

theorem json_dumps_ne_empty (v : Json) : json_dumps v ≠ "" := by
  obtain ⟨c, t, hct, -, -, -⟩ := dumpsChars_head v
  unfold json_dumps
  rw [hct]
  intro h
  have h2 := congrArg String.data h
  simp at h2

theorem optionsValue_optionsSet (f : FormFieldModel) (v : Json)
    (hwf : jsonWF v = true) : (f.optionsSet v).optionsValue = v := by
  unfold FormFieldModel.optionsSet FormFieldModel.optionsValue
    FormFieldModel.optionsGet
  simp [json_dumps_ne_empty v, json_loads_dumps v hwf]

theorem optionsValue_after_get (f : FormFieldModel) :
    (f.optionsGet.2).optionsValue = f.optionsValue := by
  cases hc : f._options_cached <;>
    simp [FormFieldModel.optionsValue, FormFieldModel.optionsGet, hc]

theorem optionsGet_set_name (f : FormFieldModel) (x : String) :
    ({ f with name := x } : FormFieldModel).optionsGet
      = (f.optionsGet.1, { f.optionsGet.2 with name := x }) := by
  cases hc : f._options_cached <;>
    simp [FormFieldModel.optionsGet, hc]

/- ### URL suffix lemmas -/

theorem string_data_append (a b : String) : (a ++ b).data = a.data ++ b.data := by
  cases a
  cases b
  rfl

theorem endsWithSlash_append_slash (s : String) :
    endsWithSlash (s ++ "/") = true := by
  unfold endsWithSlash
  rw [string_data_append]
  simp [List.getLast?_concat]

/- ### FormModel.save projections -/

theorem optionsGet_name (f : FormFieldModel) : (f.optionsGet.2).name = f.name := by
  cases hc : f._options_cached <;>
    simp [FormFieldModel.optionsGet, hc]

theorem FormModel.save_submit (m : FormModel) :
    m.save.submit_url
      = if endsWithSlash m.submit_url then m.submit_url
        else m.submit_url ++ "/" := by
  unfold FormModel.save
  by_cases h1 : endsWithSlash m.submit_url <;>
    by_cases h2 : m.success_url = "" <;>
      by_cases h3 : endsWithSlash m.success_url <;>
        simp [h1, h2, h3]

theorem FormModel.save_success (m : FormModel) :
    m.save.success_url
      = if m.success_url = "" then m.save.submit_url ++ "done/"
        else if endsWithSlash m.success_url then m.success_url
        else m.success_url ++ "/" := by
  unfold FormModel.save
  by_cases h1 : endsWithSlash m.submit_url <;>
    by_cases h2 : m.success_url = "" <;>
      by_cases h3 : endsWithSlash m.success_url <;>
        simp [FormModel.save, h1, h2, h3]

/-- C5: persisting a FormDefinition appends exactly one `/` to a
`submit_url` without a trailing slash, leaves an already-slashed
`submit_url` unchanged, and the normalization is idempotent. -/
theorem C5_submit_url_slash (m : FormModel) :
    (endsWithSlash m.submit_url = false →
        m.save.submit_url = m.submit_url ++ "/") ∧
    (endsWithSlash m.submit_url = true → m.save.submit_url = m.submit_url) ∧
    m.save.save.submit_url = m.save.submit_url := by
  refine ⟨fun h => by rw [FormModel.save_submit, if_neg (by simp [h])],
    fun h => by rw [FormModel.save_submit, if_pos h], ?_⟩
  have hs : endsWithSlash m.save.submit_url = true := by
    rw [FormModel.save_submit]
    by_cases h : endsWithSlash m.submit_url
    · rwa [if_pos h]
    · rw [if_neg h]
      exact endsWithSlash_append_slash _
  rw [FormModel.save_submit m.save, if_pos hs]

theorem C5_submit_url_slash_witness :
    (FormModel.save ⟨"contact", "/contact", "", [], "t", "u"⟩).submit_url
      = "/contact" ++ "/" :=
  (C5_submit_url_slash ⟨"contact", "/contact", "", [], "t", "u"⟩).1 (by decide)

/-- C6: on persist, an empty `success_url` becomes the normalized
`submit_url` with `done/` appended; a non-empty one is kept (when it
already ends in `/`) or gets exactly one `/` appended, and afterwards it
always ends in `/`. -/
theorem C6_success_url (m : FormModel) :
    (m.success_url = "" →
        m.save.success_url = m.save.submit_url ++ "done/") ∧
    (m.success_url ≠ "" →
      (endsWithSlash m.success_url = true →
          m.save.success_url = m.success_url) ∧
      (endsWithSlash m.success_url = false →
          m.save.success_url = m.success_url ++ "/") ∧
      endsWithSlash m.save.success_url = true) := by
  refine ⟨fun h => by rw [FormModel.save_success, if_pos h], fun h => ⟨?_, ?_, ?_⟩⟩
  · intro he
    rw [FormModel.save_success, if_neg h, if_pos he]
  · intro he
    rw [FormModel.save_success, if_neg h, if_neg (by simp [he])]
  · rw [FormModel.save_success, if_neg h]
    by_cases he : endsWithSlash m.success_url
    · rwa [if_pos he]
    · rw [if_neg he]
      exact endsWithSlash_append_slash _

theorem C6_success_url_witness :
    (FormModel.save ⟨"contact", "/contact/", "", [], "t", "u"⟩).success_url
      = (FormModel.save ⟨"contact", "/contact/", "", [], "t", "u"⟩).submit_url
          ++ "done/" :=
  (C6_success_url ⟨"contact", "/contact/", "", [], "t", "u"⟩).1 rfl

/-- C7: a FieldDefinition persisted with an empty name gets the slug of
its label as name; a non-empty name is left unchanged. -/
theorem C7_name_slug (reg : Registry) (f f' : FormFieldModel)
    (hsave : FormFieldModel.save reg f = Except.ok f') :
    (f.name = "" → f'.name = slugify f.label) ∧
    (f.name ≠ "" → f'.name = f.name) := by
  have key : ∀ g : FormFieldModel,
      FormFieldModel.saveSanitize reg g = Except.ok f' → f'.name = g.name := by
    intro g hg
    unfold FormFieldModel.saveSanitize at hg
    rcases hr : reg.get g.field_type with e | cls
    · rw [hr] at hg
      exact absurd hg (by simp)
    · rw [hr] at hg
      rcases hp : g.optionsGet with ⟨gv, f2⟩
      rw [hp] at hg
      have hf2 : f2.name = g.name := by
        have h2 := optionsGet_name g
        rw [hp] at h2
        exact h2
      cases gv with
      | obj o =>
          have hg2 : (if (o.keys.filter fun k => ! decide (k ∈ cls._meta)).isEmpty
                = true then Except.ok f2
              else Except.ok (f2.optionsSet
                (Json.obj (o.filterKeys fun k => decide (k ∈ cls._meta)))))
              = Except.ok f' := hg
          by_cases hc : (o.keys.filter fun k => ! decide (k ∈ cls._meta)).isEmpty = true
          · rw [if_pos hc] at hg2
            injection hg2 with hg2
            rw [← hg2]
            exact hf2
          · rw [if_neg hc] at hg2
            injection hg2 with hg2
            rw [← hg2]
            exact hf2
      | null => exact absurd hg (by simp)
      | bool b => exact absurd hg (by simp)
      | num i => exact absurd hg (by simp)
      | str s => exact absurd hg (by simp)
      | arr l => exact absurd hg (by simp)
  unfold FormFieldModel.save at hsave
  constructor
  · intro hn
    rw [if_pos hn] at hsave
    rw [key _ hsave]
  · intro hn
    rw [if_neg hn] at hsave
    exact key f hsave

theorem C7_name_slug_witness :
    ("" = "" →
      (⟨1, "t", "Full Name", "full-name", some "\x7b\"max_length\": 50\x7d", 0,
          some (.obj (.cons "max_length" (.num 50) .nil))⟩ :
        FormFieldModel).name = slugify "Full Name") ∧
    ("" ≠ "" →
      (⟨1, "t", "Full Name", "full-name", some "\x7b\"max_length\": 50\x7d", 0,
          some (.obj (.cons "max_length" (.num 50) .nil))⟩ :
        FormFieldModel).name = "") :=
  C7_name_slug ⟨[("t", ⟨["max_length"]⟩)]⟩
    ⟨1, "t", "Full Name", "", some "\x7b\"max_length\": 50\x7d", 0, none⟩ _ rfl

/-- C9: an unregistered `field_type` makes both `generate_form_field`
and `save` fail with `NotFound`, raised to the immediate caller. -/
theorem C9_unregistered (reg : Registry) (f : FormFieldModel)
    (h : reg.get f.field_type = Except.error PyErr.notFound) :
    generate_form_field reg f = Except.error PyErr.notFound ∧
    FormFieldModel.save reg f = Except.error PyErr.notFound := by
  constructor
  · unfold generate_form_field
    rw [h]
  · unfold FormFieldModel.save FormFieldModel.saveSanitize
    by_cases hn : f.name = ""
    · rw [if_pos hn]
      rw [show ({ f with name := slugify f.label } : FormFieldModel).field_type
            = f.field_type from rfl, h]
    · rw [if_neg hn, h]

theorem C9_unregistered_witness :
    generate_form_field ⟨[]⟩ ⟨1, "missing", "L", "n", none, 0, none⟩
        = Except.error PyErr.notFound ∧
    FormFieldModel.save ⟨[]⟩ ⟨1, "missing", "L", "n", none, 0, none⟩
        = Except.error PyErr.notFound :=
  C9_unregistered ⟨[]⟩ ⟨1, "missing", "L", "n", none, 0, none⟩ rfl

/-- C10: assigning a mapping through the options setter and reading the
property back returns the same mapping (the setter serializes eagerly
and invalidates the cache; the getter decodes the fresh blob). -/
theorem C10_set_get_roundtrip (f : FormFieldModel) (o : JsonObj)
    (hwf : jsonWF (Json.obj o) = true) :
    (f.optionsSet (Json.obj o)).optionsValue = Json.obj o :=
  optionsValue_optionsSet f (Json.obj o) hwf

theorem C10_set_get_roundtrip_witness :
    ((⟨1, "t", "L", "n", none, 0, none⟩ : FormFieldModel).optionsSet
        (Json.obj (.cons "a" (.num 1) (.cons "b" (.str "x") .nil)))).optionsValue
      = Json.obj (.cons "a" (.num 1) (.cons "b" (.str "x") .nil)) :=
  C10_set_get_roundtrip ⟨1, "t", "L", "n", none, 0, none⟩
    (.cons "a" (.num 1) (.cons "b" (.str "x") .nil)) rfl

/-- C2: with no cached decode, reading the options property of a stored
blob never raises: a null or empty blob and a blob that fails to decode
yield the empty mapping, and a decodable blob yields its decoded value. -/
theorem C2_read_failsoft (f : FormFieldModel)
    (hfresh : f._options_cached = none) :
    (f._options = none → f.optionsValue = Json.obj .nil) ∧
    (f._options = some "" → f.optionsValue = Json.obj .nil) ∧
    (∀ s, f._options = some s → json_loads s = none →
        f.optionsValue = Json.obj .nil) ∧
    (∀ s v, f._options = some s → json_loads s = some v →
        f.optionsValue = v) := by
  refine ⟨?_, ?_, ?_, ?_⟩
  · intro hb
    simp [FormFieldModel.optionsValue, FormFieldModel.optionsGet, hfresh, hb]
  · intro hb
    simp [FormFieldModel.optionsValue, FormFieldModel.optionsGet, hfresh, hb]
  · intro s hb hl
    by_cases hs : s = ""
    · simp [FormFieldModel.optionsValue, FormFieldModel.optionsGet, hfresh, hb, hs]
    · simp [FormFieldModel.optionsValue, FormFieldModel.optionsGet, hfresh, hb,
        hs, hl]
  · intro s v hb hl
    by_cases hs : s = ""
    · rw [hs] at hl
      exact absurd hl (by simp [json_loads, parseValue, skipWs])
    · simp [FormFieldModel.optionsValue, FormFieldModel.optionsGet, hfresh, hb,
        hs, hl]

theorem C2_read_failsoft_witness :
    (⟨1, "t", "L", "n", some "\x7bnot json", 0, none⟩ :
        FormFieldModel).optionsValue = Json.obj .nil :=
  (C2_read_failsoft ⟨1, "t", "L", "n", some "\x7bnot json", 0, none⟩ rfl).2.2.1
    "\x7bnot json" rfl rfl

/- ### Small list helpers -/

theorem filter_eq_nil_all {α : Type} {p : α → Bool} :
    ∀ {l : List α}, l.filter p = [] → ∀ a ∈ l, p a = false := by
  intro l
  induction l with
  | nil => intro _ a ha; exact absurd ha (List.not_mem_nil a)
  | cons x t ih =>
      intro h a ha
      rw [List.filter_cons] at h
      by_cases hx : p x = true
      · rw [if_pos hx] at h
        exact absurd h (by simp)
      · rw [if_neg hx] at h
        rcases List.mem_cons.mp ha with rfl | ha
        · exact Bool.eq_false_iff.mpr hx
        · exact ih h a ha

theorem isEmpty_eq_nil {α : Type} {l : List α} (h : l.isEmpty = true) :
    l = [] := by
  cases l with
  | nil => rfl
  | cons a t => exact absurd h (by simp)

/-- C8: `get_fields_as_dict` is the name → label mapping over the form's
fields enumerated in defined order: the enumeration is a permutation of
the fields, ascending in `position`, and within each position value the
creation order is preserved (the ordering is a stable sort). -/
theorem C8_fields_dict (fields : List FormFieldModel)
    (hnames : (fields.map FormFieldModel.name).Nodup) :
    FormModel.get_fields_as_dict fields
        = (orderFields fields).map (fun f => (f.name, f.label)) ∧
      (orderFields fields).Perm fields ∧
      (orderFields fields).Pairwise (fun a b => a.position ≤ b.position) ∧
      ∀ p : Int, (orderFields fields).filter (fun f => decide (f.position = p))
          = fields.filter (fun f => decide (f.position = p)) := by
  have hperm : (orderFields fields).Perm fields := sortListBy_perm posLt fields
  refine ⟨?_, hperm, ?_, ?_⟩
  · unfold FormModel.get_fields_as_dict
    apply orderedDictOfPairs_nodup
    have hmm : ((orderFields fields).map fun f => (f.name, f.label)).map Prod.fst
        = (orderFields fields).map FormFieldModel.name := by
      rw [List.map_map]
      rfl
    rw [hmm]
    exact (List.Perm.nodup_iff (hperm.map FormFieldModel.name)).mpr hnames
  · have hpw := sortListBy_pairwise posLt_asymm posLt_negtrans fields
    exact hpw.imp fun h => by
      unfold posLt at h
      simp only [decide_eq_false_iff_not] at h
      omega
  · intro p
    exact sortListBy_filter
      (fun x y hx hy => by
        simp only [decide_eq_true_eq] at hx
        unfold posLt at hy
        simp only [decide_eq_true_eq] at hy
        simp only [decide_eq_false_iff_not]
        omega) fields

theorem C8_fields_dict_witness :
    FormModel.get_fields_as_dict
        [⟨1, "t", "B", "b", none, 2, none⟩, ⟨1, "t", "A", "a", none, 1, none⟩,
         ⟨1, "t", "C", "c", none, 2, none⟩]
        = (orderFields
            [⟨1, "t", "B", "b", none, 2, none⟩, ⟨1, "t", "A", "a", none, 1, none⟩,
             ⟨1, "t", "C", "c", none, 2, none⟩]).map (fun f => (f.name, f.label)) ∧
      (orderFields
          [⟨1, "t", "B", "b", none, 2, none⟩, ⟨1, "t", "A", "a", none, 1, none⟩,
           ⟨1, "t", "C", "c", none, 2, none⟩]).Perm
        [⟨1, "t", "B", "b", none, 2, none⟩, ⟨1, "t", "A", "a", none, 1, none⟩,
         ⟨1, "t", "C", "c", none, 2, none⟩] ∧
      (orderFields
          [⟨1, "t", "B", "b", none, 2, none⟩, ⟨1, "t", "A", "a", none, 1, none⟩,
           ⟨1, "t", "C", "c", none, 2, none⟩]).Pairwise
        (fun a b => a.position ≤ b.position) ∧
      ∀ p : Int,
        (orderFields
            [⟨1, "t", "B", "b", none, 2, none⟩, ⟨1, "t", "A", "a", none, 1, none⟩,
             ⟨1, "t", "C", "c", none, 2, none⟩]).filter
            (fun f => decide (f.position = p))
          = [⟨1, "t", "B", "b", none, 2, none⟩, ⟨1, "t", "A", "a", none, 1, none⟩,
             ⟨1, "t", "C", "c", none, 2, none⟩].filter
              (fun f => decide (f.position = p)) :=
  C8_fields_dict
    [⟨1, "t", "B", "b", none, 2, none⟩, ⟨1, "t", "A", "a", none, 1, none⟩,
     ⟨1, "t", "C", "c", none, 2, none⟩] (by decide)

/-- C3 (counterexample): the stored value `"3"` decodes successfully (to
a non-mapping), yet `pretty_value` raises `AttributeError` instead of
returning a rendering or the raw string — refuting "never raises". -/
theorem C3_counterexample :
    json_loads "3" = some (Json.num 3) ∧
    FormModelData.pretty_value ⟨none, "3", 0⟩
      = Except.error PyErr.attributeError :=
  ⟨rfl, rfl⟩

/-- C3 (amended): `pretty_value` returns the raw string when decoding
fails; it renders a decoded mapping as a `<dl>` of escaped key/value
pairs sorted ascending by key; but a value decoding to a non-mapping
raises `AttributeError` (only `ValueError` is caught). -/
theorem C3_pretty_value (d : FormModelData) :
    (json_loads d.value = none → d.pretty_value = Except.ok d.value) ∧
    (∀ o : JsonObj, json_loads d.value = some (Json.obj o) →
      d.pretty_value = Except.ok (renderDl (sortPairs o.toPairs)) ∧
      (sortPairs o.toPairs).Perm o.toPairs ∧
      (sortPairs o.toPairs).Pairwise (fun a b => pairLt b a = false)) ∧
    (∀ v : Json, json_loads d.value = some v → (∀ o : JsonObj, v ≠ Json.obj o) →
      d.pretty_value = Except.error PyErr.attributeError) := by
  refine ⟨?_, ?_, ?_⟩
  · intro h
    unfold FormModelData.pretty_value
    rw [h]
  · intro o h
    unfold FormModelData.pretty_value
    rw [h]
    exact ⟨rfl, sortListBy_perm pairLt o.toPairs,
      sortListBy_pairwise pairLt_asymm pairLt_negtrans o.toPairs⟩
  · intro v h hno
    unfold FormModelData.pretty_value
    rw [h]
    cases v with
    | obj o => exact absurd rfl (hno o)
    | null => rfl
    | bool b => rfl
    | num i => rfl
    | str s => rfl
    | arr l => rfl

theorem C3_pretty_value_witness :
    FormModelData.pretty_value ⟨none, "\x7b\"b\":\"2\",\"a\":\"1\"\x7d", 0⟩
        = Except.ok (renderDl (sortPairs (JsonObj.cons "b" (.str "2")
            (.cons "a" (.str "1") .nil)).toPairs)) ∧
      (sortPairs (JsonObj.cons "b" (.str "2")
          (.cons "a" (.str "1") .nil)).toPairs).Perm
        (JsonObj.cons "b" (.str "2") (.cons "a" (.str "1") .nil)).toPairs ∧
      (sortPairs (JsonObj.cons "b" (.str "2")
          (.cons "a" (.str "1") .nil)).toPairs).Pairwise
        (fun a b => pairLt b a = false) :=
  (C3_pretty_value ⟨none, "\x7b\"b\":\"2\",\"a\":\"1\"\x7d", 0⟩).2.1
    (JsonObj.cons "b" (.str "2") (.cons "a" (.str "1") .nil)) rfl

/-- C4 (counterexample): `generate_form_field` does not leave the
FieldDefinition unchanged — at this input the call succeeds but the
returned state differs from the input state (its cached decoded options
now exist and contain `name` and `label`). -/
theorem C4_counterexample :
    (generate_form_field ⟨[("t", ⟨["max_length"]⟩)]⟩
        ⟨1, "t", "L", "n", some "\x7b\"max_length\": 50\x7d", 0, none⟩).map
        Prod.fst
      ≠ Except.ok ⟨1, "t", "L", "n", some "\x7b\"max_length\": 50\x7d", 0, none⟩ := by
  intro h
  have he : (generate_form_field ⟨[("t", ⟨["max_length"]⟩)]⟩
      ⟨1, "t", "L", "n", some "\x7b\"max_length\": 50\x7d", 0, none⟩).map Prod.fst
      = Except.ok (⟨1, "t", "L", "n", some "\x7b\"max_length\": 50\x7d", 0,
          some (.obj (.cons "max_length" (.num 50) (.cons "name" (.str "n")
            (.cons "label" (.str "L") .nil))))⟩ : FormFieldModel) := rfl
  rw [he] at h
  injection h with h
  have hc := congrArg FormFieldModel._options_cached h
  exact Option.noConfusion hc

/-- C4 (amended): `generate_form_field` leaves the stored blob, name,
label, position, parent and field type unchanged, but it does mutate the
cached decoded options: `kwargs = self.options` aliases the cache and
`kwargs.update({'name': ..., 'label': ...})` writes through it, so the
cache afterwards holds the options mapping updated with the `name` and
`label` entries (the kwargs passed to the field constructor). -/
theorem C4_generate_form_field_frame (reg : Registry) (cls : FieldType)
    (f : FormFieldModel) (o : JsonObj)
    (hreg : reg.get f.field_type = Except.ok cls)
    (hopts : f.optionsValue = Json.obj o) :
    generate_form_field reg f = Except.ok
      ({ f with _options_cached := some (Json.obj
          (insertOD (insertOD o "name" (Json.str f.name)) "label"
            (Json.str f.label))) },
        insertOD (insertOD o "name" (Json.str f.name)) "label"
          (Json.str f.label)) := by
  unfold generate_form_field
  rw [hreg]
  unfold FormFieldModel.get_form_field_kwargs
  cases hc : f._options_cached with
  | some v =>
      have hv : v = Json.obj o := by
        unfold FormFieldModel.optionsValue FormFieldModel.optionsGet at hopts
        rw [hc] at hopts
        exact hopts
      have hget : f.optionsGet = (Json.obj o, f) := by
        unfold FormFieldModel.optionsGet
        rw [hc, hv]
      rw [hget]
  | none =>
      have hv : (match f._options with
          | none => Json.obj .nil
          | some s =>
              if s = "" then Json.obj .nil
              else (json_loads s).getD (Json.obj .nil)) = Json.obj o := by
        unfold FormFieldModel.optionsValue FormFieldModel.optionsGet at hopts
        rw [hc] at hopts
        exact hopts
      have hget : f.optionsGet
          = (Json.obj o, { f with _options_cached := some (Json.obj o) }) := by
        unfold FormFieldModel.optionsGet
        rw [hc]
        simp only [hv]
      rw [hget]

theorem C4_generate_form_field_frame_witness :
    generate_form_field ⟨[("t", ⟨["max_length"]⟩)]⟩
        ⟨1, "t", "L", "n", some "\x7b\"max_length\": 50\x7d", 0, none⟩
      = Except.ok
        ({ (⟨1, "t", "L", "n", some "\x7b\"max_length\": 50\x7d", 0, none⟩ :
              FormFieldModel) with
            _options_cached := some (Json.obj
              (insertOD (insertOD (JsonObj.cons "max_length" (.num 50) .nil)
                "name" (Json.str "n")) "label" (Json.str "L"))) },
          insertOD (insertOD (JsonObj.cons "max_length" (.num 50) .nil) "name"
            (Json.str "n")) "label" (Json.str "L")) :=
  C4_generate_form_field_frame ⟨[("t", ⟨["max_length"]⟩)]⟩ ⟨["max_length"]⟩
    ⟨1, "t", "L", "n", some "\x7b\"max_length\": 50\x7d", 0, none⟩
    (.cons "max_length" (.num 50) .nil) rfl rfl

/-- C1: after a successful save of a FieldDefinition whose decoded
options form a mapping, the stored options mapping (what a subsequent
read of the property returns) has no key outside the `field_type`'s
declared schema, and every declared key that was present keeps its
value.  The well-formedness hypothesis (pairwise-distinct keys) holds
for every mapping a Python dict can represent. -/
theorem C1_options_sanitized (reg : Registry) (cls : FieldType)
    (f f' : FormFieldModel) (o : JsonObj)
    (hreg : reg.get f.field_type = Except.ok cls)
    (hopts : f.optionsValue = Json.obj o)
    (hwf : jsonWFObj o = true)
    (hsave : FormFieldModel.save reg f = Except.ok f') :
    ∃ o' : JsonObj, f'.optionsValue = Json.obj o' ∧
      (∀ k ∈ o'.keys, k ∈ cls._meta) ∧
      (∀ k ∈ cls._meta, o'.lookup k = o.lookup k) := by
  have key : ∀ g : FormFieldModel, g.optionsValue = Json.obj o →
      reg.get g.field_type = Except.ok cls →
      FormFieldModel.saveSanitize reg g = Except.ok f' →
      ∃ o' : JsonObj, f'.optionsValue = Json.obj o' ∧
        (∀ k ∈ o'.keys, k ∈ cls._meta) ∧
        (∀ k ∈ cls._meta, o'.lookup k = o.lookup k) := by
    intro g hgv hr hg
    unfold FormFieldModel.saveSanitize at hg
    rw [hr] at hg
    rcases hp : g.optionsGet with ⟨gv, f2⟩
    rw [hp] at hg
    have hgv2 : gv = Json.obj o := by
      have h1 : g.optionsValue = gv := by
        unfold FormFieldModel.optionsValue
        rw [hp]
      rw [h1] at hgv
      exact hgv
    subst hgv2
    have hf2v : f2.optionsValue = Json.obj o := by
      have h3 := optionsValue_after_get g
      rw [hp] at h3
      exact h3.trans hgv
    have hg2 : (if (o.keys.filter fun k => ! decide (k ∈ cls._meta)).isEmpty
          = true then Except.ok f2
        else Except.ok (f2.optionsSet
          (Json.obj (o.filterKeys fun k => decide (k ∈ cls._meta)))))
        = Except.ok f' := hg
    by_cases hc : (o.keys.filter fun k => ! decide (k ∈ cls._meta)).isEmpty = true
    · rw [if_pos hc] at hg2
      injection hg2 with hg2
      subst hg2
      refine ⟨o, hf2v, ?_, fun k _ => rfl⟩
      intro k hk
      have hfe := isEmpty_eq_nil hc
      have h5 := filter_eq_nil_all hfe k hk
      simpa using h5
    · rw [if_neg hc] at hg2
      injection hg2 with hg2
      subst hg2
      have hwff : jsonWF (Json.obj (o.filterKeys fun k => decide (k ∈ cls._meta)))
          = true := by
        rw [jsonWF_obj]
        exact jsonWFObj_filterKeys _ o hwf
      refine ⟨o.filterKeys fun k => decide (k ∈ cls._meta),
        optionsValue_optionsSet f2 _ hwff, ?_, ?_⟩
      · intro k hk
        rw [keys_filterKeys] at hk
        have h6 := List.of_mem_filter hk
        simpa using h6
      · intro k hk
        exact lookup_filterKeys _ o k (by simpa using hk)
  unfold FormFieldModel.save at hsave
  by_cases hn : f.name = ""
  · rw [if_pos hn] at hsave
    refine key _ ?_ ?_ hsave
    · have h7 := optionsGet_set_name f (slugify f.label)
      unfold FormFieldModel.optionsValue
      rw [h7]
      exact hopts
    · exact hreg
  · rw [if_neg hn] at hsave
    exact key f hopts hreg hsave

theorem C1_options_sanitized_witness :
    ∃ o' : JsonObj,
      (⟨1, "t", "L", "n", some "\x7b\"max_length\": 50\x7d", 0, none⟩ :
          FormFieldModel).optionsValue = Json.obj o' ∧
      (∀ k ∈ o'.keys, k ∈ ["max_length"]) ∧
      (∀ k ∈ ["max_length"], o'.lookup k
          = (JsonObj.cons "max_length" (.num 50)
              (.cons "bogus" (.num 1) .nil)).lookup k) :=
  C1_options_sanitized ⟨[("t", ⟨["max_length"]⟩)]⟩ ⟨["max_length"]⟩
    ⟨1, "t", "L", "n", some "\x7b\"max_length\": 50, \"bogus\": 1\x7d", 0, none⟩
    ⟨1, "t", "L", "n", some "\x7b\"max_length\": 50\x7d", 0, none⟩
    (.cons "max_length" (.num 50) (.cons "bogus" (.num 1) .nil))
    rfl rfl rfl rfl
